import Mathlib

/-
Verification of the store-variables compiler pass
(crates/cairo-lang-sierra-generator/src/store_variables/mod.rs).

The pass inserts store_temp / store_local / dup / rename invocations into a
pre-sierra statement list.  The driver (mod.rs) is embedded faithfully below.
The helper modules state.rs and known_stack.rs are not part of the sources,
so the corresponding definitions (State operations, KnownStack operations,
merging and output registration) are modelled from the specification; each
such definition carries a doc comment saying so.
-/

namespace StoreVars

/-- Variable identifiers (sierra VarId): opaque keys, modelled as Nat. -/
abbrev VarId := Nat

/-- Concrete type identifiers (sierra ConcreteTypeId), modelled as Nat. -/
abbrev TypeId := Nat

/-- Label identifiers (pre_sierra LabelId), modelled as Nat. -/
abbrev LabelId := Nat

/-- The kind of a deferred variable (state.rs DeferredVariableKind,
modelled from the spec: Const, AddConst, Generic). -/
inductive DeferredVariableKind where
  | Const
  | AddConst
  | Generic
deriving DecidableEq

/-- Information about a deferred variable (state.rs DeferredVariableInfo,
modelled from the spec: a kind together with the concrete type). -/
structure DeferredVariableInfo where
  kind : DeferredVariableKind
  ty : TypeId
deriving DecidableEq

/-- Placement state of a live variable (state.rs VarState, modelled from the
spec: Deferred, TempVar with its type, or LocalVar). -/
inductive VarState where
  | Deferred (info : DeferredVariableInfo)
  | TempVar (ty : TypeId)
  | LocalVar
deriving DecidableEq

/-- Concrete libfunc identifiers.  The four synthesised primitives obtained
from the db helpers (store_temp_libfunc_id etc. in utils.rs) are distinguished
constructors carrying their concrete type; all other libfuncs are opaque. -/
inductive LibfuncId where
  | StoreTemp (ty : TypeId)
  | StoreLocal (ty : TypeId)
  | Dup (ty : TypeId)
  | Rename (ty : TypeId)
  | User (id : Nat)
deriving DecidableEq

/-- Branch target of an invocation (sierra GenBranchTarget):
fallthrough, or a jump to a label. -/
inductive BranchTarget where
  | Fallthrough
  | Statement (l : LabelId)
deriving DecidableEq

/-- Branch information of an invocation (sierra GenBranchInfo). -/
structure BranchInfo where
  target : BranchTarget
  results : List VarId
deriving DecidableEq

/-- A libfunc invocation (sierra GenInvocation). -/
structure GenInvocation where
  libfunc_id : LibfuncId
  args : List VarId
  branches : List BranchInfo
deriving DecidableEq

/-- One entry of a PushValues pseudo-statement (pre_sierra PushValue). -/
structure PushValue where
  var : VarId
  var_on_stack : VarId
  ty : TypeId
  dup : Bool
deriving DecidableEq

/-- A pre-sierra statement: invocation, return, label, or push-values. -/
inductive Statement where
  | Invocation (inv : GenInvocation)
  | Return (vars : List VarId)
  | Label (l : LabelId)
  | PushValues (push_values : List PushValue)
deriving DecidableEq

/-- Ap-change declared by a branch signature (sierra SierraApChange,
modelled from the spec: Known with a delta, BranchAlign, or Unknown). -/
inductive SierraApChange where
  | Known (delta : Nat)
  | BranchAlign
  | Unknown
deriving DecidableEq

/-- Parameter annotation flags of a libfunc signature (sierra ParamSignature;
only the three allow flags are consulted by the pass). -/
structure ParamSignature where
  allow_deferred : Bool
  allow_add_const : Bool
  allow_const : Bool
deriving DecidableEq

/-- Output kind declared for one result position (modelled from the spec:
NewTempVar, NewLocalVar, Deferred of a kind, or SameAsParam of an index). -/
inductive OutputKind where
  | NewTempVar
  | NewLocalVar
  | Deferred (kind : DeferredVariableKind)
  | SameAsParam (i : Nat)
deriving DecidableEq

/-- Output variable information: concrete type plus output kind
(modelled from the spec). -/
structure OutputVarInfo where
  ty : TypeId
  kind : OutputKind
deriving DecidableEq

/-- Signature of one outgoing branch (modelled from the spec: output
requests and the declared ap-change). -/
structure BranchSignature where
  vars : List OutputVarInfo
  ap_change : SierraApChange
deriving DecidableEq

/-- A libfunc signature: one ParamSignature per argument and one
BranchSignature per outgoing branch. -/
structure LibfuncSignature where
  param_signatures : List ParamSignature
  branch_signatures : List BranchSignature
deriving DecidableEq

/-- Information about a libfunc required by the pass (mod.rs LibfuncInfo). -/
structure LibfuncInfo where
  signature : LibfuncSignature
deriving DecidableEq

section OrderedMap

variable {κ ν : Type} [DecidableEq κ]

/-- Lookup in an insertion-ordered association list (OrderedHashMap get):
the value of the first entry with the given key. -/
def om_lookup : List (κ × ν) → κ → Option ν
  | [], _ => none
  | p :: rest, k => if p.1 = k then some p.2 else om_lookup rest k

/-- Insert into an insertion-ordered association list (OrderedHashMap
insert): an existing key keeps its position and gets the new value, a new
key is appended at the end. -/
def om_insert : List (κ × ν) → κ → ν → List (κ × ν)
  | [], k, x => [(k, x)]
  | p :: rest, k, x => if p.1 = k then (k, x) :: rest else p :: om_insert rest k x

/-- Removal with indexmap swap_remove semantics (OrderedHashMap
swap_remove): the entry with the given key is removed and the last entry of
the list takes its place.  No entry with the key leaves the list unchanged. -/
def om_swap_remove : List (κ × ν) → κ → List (κ × ν)
  | [], _ => []
  | p :: rest, k =>
    if p.1 = k then
      match rest.getLast? with
      | none => []
      | some last => last :: rest.dropLast
    else p :: om_swap_remove rest k

/-- The keys of the map are pairwise distinct (the OrderedHashMap
representation invariant). -/
def keys_nodup (m : List (κ × ν)) : Prop := (m.map Prod.fst).Nodup

instance (m : List (κ × ν)) : Decidable (keys_nodup m) := by
  unfold keys_nodup; infer_instance

end OrderedMap

/-- The known-stack model (known_stack.rs, modelled from the spec): the
ordered list of variables known to be the top of the stack, topmost last. -/
abbrev KnownStack := List VarId

/-- Modelled from the spec: the size of the longest leading run of the
requested push sequence that is already on top of the stack in the requested
order, contiguously, terminating at the top (the on-stack size computation
of known_stack.rs consulted by push_values). -/
def on_stack_run_size (ks : KnownStack) (pvs : List PushValue) : Nat :=
  (List.range (pvs.length + 1)).foldl
    (fun acc k => if ((pvs.take k).map PushValue.var).reverse.isPrefixOf ks.reverse then k else acc) 0

/-- The per-program-point abstract state (state.rs State, modelled from the
spec): the insertion-ordered variables map plus the known stack. -/
structure State where
  vars : List (VarId × VarState)
  known_stack : KnownStack
deriving DecidableEq

/-- Modelled from the spec: longest common contiguous top-of-stack part of
two known stacks (positions preserved; topmost last). -/
def common_top (a b : KnownStack) : KnownStack :=
  ((a.reverse.zip b.reverse).takeWhile (fun p => decide (p.1 = p.2))).map Prod.fst |>.reverse

/-- Modelled from the spec: join of two reachable states.  A variable is
kept only when present on both sides with identical placement states; the
known stack is the common top-of-stack part. -/
def merge_states (a b : State) : State :=
  { vars := a.vars.filter (fun p => decide (om_lookup b.vars p.1 = some p.2))
    known_stack := common_top a.known_stack b.known_stack }

/-- Merge of two optional states (state.rs merge_optional_states, modelled
from the spec): None is unreachable, so the other side wins. -/
def merge_optional_states : Option State → Option State → Option State
  | none, b => b
  | some a, none => some a
  | some a, some b => some (merge_states a b)

/-- Modelled from the spec: variable rename in the state (state.rs
rename_var): the variables map entry and the known-stack cells are renamed
in place. -/
def State.rename_var_state (s : State) (src dst : VarId) : State :=
  { vars := s.vars.map (fun p => if p.1 = src then (dst, p.2) else p)
    known_stack := s.known_stack.map (fun v => if v = src then dst else v) }

/-- Modelled from the spec: registration of the outputs of one branch,
walking result positions in order.  NewTempVar results are pushed onto the
known stack; SameAsParam reuses the captured argument state (failure on an
out-of-range index models the producer-invariant panic). -/
def register_outputs_list (arg_states : List VarState) :
    State → List (VarId × OutputVarInfo) → Option State
  | s, [] => some s
  | s, (r, info) :: rest =>
    match info.kind with
    | OutputKind.NewTempVar =>
        register_outputs_list arg_states
          { vars := om_insert s.vars r (VarState.TempVar info.ty)
            known_stack := s.known_stack ++ [r] } rest
    | OutputKind.NewLocalVar =>
        register_outputs_list arg_states
          { s with vars := om_insert s.vars r VarState.LocalVar } rest
    | OutputKind.Deferred k =>
        register_outputs_list arg_states
          { s with vars := om_insert s.vars r (VarState.Deferred ⟨k, info.ty⟩) } rest
    | OutputKind.SameAsParam i =>
        match arg_states[i]? with
        | none => none
        | some vs =>
            register_outputs_list arg_states
              { s with vars := om_insert s.vars r vs } rest

/-- Modelled from the spec: State.register_outputs.  The known-stack content
is invalidated unless the ap-change of the branch is statically Known (this
realises the spec rule that the stack is cleared at operations with unknown
ap-change and at operations that branch to more than one target, whose
branches carry BranchAlign).  The results are then registered pairwise with
the declared output kinds (length mismatch models the zip panic). -/
def register_outputs (s : State) (results : List VarId) (bsig : BranchSignature)
    (arg_states : List VarState) : Option State :=
  let s :=
    match bsig.ap_change with
    | SierraApChange.Known _ => s
    | _ => { s with known_stack := [] }
  if results.length = bsig.vars.length then
    register_outputs_list arg_states s (results.zip bsig.vars)
  else none

/-- The driver object (mod.rs AddStoreVariableStatements), minus the opaque
db handle: the local-variables map, the output statement list, the current
optional state, and the pending future states per label. -/
structure Ctx where
  local_variables : List (VarId × VarId)
  result : List Statement
  state_opt : Option State
  future_states : List (LabelId × State)
deriving DecidableEq

/-- An invocation of a primitive libfunc with one fallthrough branch
(utils.rs simple_statement; positional representation: inputs, outputs). -/
def simple_statement (id : LibfuncId) (args results : List VarId) : Statement :=
  Statement.Invocation ⟨id, args, [⟨BranchTarget.Fallthrough, results⟩]⟩

/-- The context with the variables map of its (reachable) state replaced. -/
def ctx_with_vars (c : Ctx) (s : State) (m : List (VarId × VarState)) : Ctx :=
  { c with state_opt := some { s with vars := m } }

/-- mod.rs store_temp: appends a store_temp statement storing var into
var_on_stack, pushes var_on_stack onto the known stack and records it as a
temporary.  Fails when the current point is unreachable. -/
def store_temp (c : Ctx) (var var_on_stack : VarId) (ty : TypeId) : Option Ctx :=
  match c.state_opt with
  | none => none
  | some s =>
    some { c with
      result := c.result ++ [simple_statement (LibfuncId.StoreTemp ty) [var] [var_on_stack]]
      state_opt := some
        { vars := om_insert s.vars var_on_stack (VarState.TempVar ty)
          known_stack := s.known_stack ++ [var_on_stack] } }

/-- mod.rs store_local: appends a store_local statement storing var into
itself through the preallocated slot, and records var as a local. -/
def store_local (c : Ctx) (var uninit_local_var_id : VarId) (ty : TypeId) : Option Ctx :=
  match c.state_opt with
  | none => none
  | some s =>
    some { c with
      result := c.result ++ [simple_statement (LibfuncId.StoreLocal ty) [uninit_local_var_id, var] [var]]
      state_opt := some { s with vars := om_insert s.vars var VarState.LocalVar } }

/-- mod.rs dup: appends a dup statement duplicating var into dup_var
(no state change). -/
def dup_stmt (c : Ctx) (var dup_var : VarId) (ty : TypeId) : Ctx :=
  { c with result := c.result ++ [simple_statement (LibfuncId.Dup ty) [var] [var, dup_var]] }

/-- mod.rs rename_var: appends a rename statement and renames src to dst in
the state. -/
def rename_var (c : Ctx) (src dst : VarId) (ty : TypeId) : Option Ctx :=
  match c.state_opt with
  | none => none
  | some s =>
    some { c with
      result := c.result ++ [simple_statement (LibfuncId.Rename ty) [src] [dst]]
      state_opt := some (s.rename_var_state src dst) }

/-- mod.rs store_deferred_ex: store the deferred variable into its local
slot when it is marked local, otherwise store it as a temporary under
var_on_stack.  Returns the resulting variable state. -/
def store_deferred_ex (c : Ctx) (var var_on_stack : VarId) (ty : TypeId) :
    Option (VarState × Ctx) :=
  match om_lookup c.local_variables var with
  | some uninit_local_var_id =>
    match store_local c var uninit_local_var_id ty with
    | none => none
    | some c => some (VarState.LocalVar, c)
  | none =>
    match store_temp c var var_on_stack ty with
    | none => none
    | some c => some (VarState.TempVar ty, c)

/-- mod.rs store_deferred: store_deferred_ex with the variable as its own
on-stack name. -/
def store_deferred (c : Ctx) (var : VarId) (ty : TypeId) : Option (VarState × Ctx) :=
  store_deferred_ex c var var ty

/-- mod.rs store_temp_as_local: when the variable is marked local, remove it
from the map (it must be a temporary, anything else is a fatal error), copy
it into its slot and report true; otherwise report false. -/
def store_temp_as_local (c : Ctx) (var : VarId) : Option (Bool × Ctx) :=
  match om_lookup c.local_variables var with
  | some uninit_local_var_id =>
    match c.state_opt with
    | none => none
    | some s =>
      match om_lookup s.vars var with
      | none => none
      | some var_state =>
        match var_state with
        | VarState.TempVar ty =>
          match store_local (ctx_with_vars c s (om_swap_remove s.vars var))
              var uninit_local_var_id ty with
          | none => none
          | some c => some (true, c)
        | _ => none
  | none => some (false, c)

/-- mod.rs prepare_libfunc_argument: produce the argument state for one
argument, storing it first when the parameter annotations require it. -/
def prepare_libfunc_argument (c : Ctx) (arg : VarId)
    (allow_deferred allow_add_const allow_const : Bool) : Option (VarState × Ctx) :=
  match c.state_opt with
  | none => none
  | some s =>
    match om_lookup s.vars arg with
    | none => none
    | some var_state =>
      match var_state with
      | VarState.Deferred info =>
        if (om_lookup c.local_variables arg).isSome then
          store_deferred (ctx_with_vars c s (om_swap_remove s.vars arg)) arg info.ty
        else
          match info.kind with
          | DeferredVariableKind.Const =>
            if !allow_const then store_deferred (ctx_with_vars c s (om_swap_remove s.vars arg)) arg info.ty
            else some (var_state, ctx_with_vars c s (om_swap_remove s.vars arg))
          | DeferredVariableKind.AddConst =>
            if !allow_add_const then store_deferred (ctx_with_vars c s (om_swap_remove s.vars arg)) arg info.ty
            else some (var_state, ctx_with_vars c s (om_swap_remove s.vars arg))
          | DeferredVariableKind.Generic =>
            if !allow_deferred then store_deferred (ctx_with_vars c s (om_swap_remove s.vars arg)) arg info.ty
            else some (var_state, ctx_with_vars c s (om_swap_remove s.vars arg))
      | VarState.TempVar _ =>
        match store_temp_as_local
            (ctx_with_vars c s (om_insert (om_swap_remove s.vars arg) arg var_state)) arg with
        | none => none
        | some (true, c) => some (VarState.LocalVar, c)
        | some (false, c) => some (var_state, c)
      | VarState.LocalVar => some (VarState.LocalVar, ctx_with_vars c s (om_swap_remove s.vars arg))

/-- mod.rs prepare_libfunc_arguments: prepare each argument in order and
make sure it is consumed from the variables map.  The two lists are walked
pairwise (a length mismatch models the zip panic). -/
def prepare_libfunc_arguments (c : Ctx) :
    List VarId → List ParamSignature → Option (List VarState × Ctx)
  | [], [] => some ([], c)
  | arg :: args, psig :: psigs =>
    match prepare_libfunc_argument c arg psig.allow_deferred psig.allow_add_const
        psig.allow_const with
    | none => none
    | some (arg_state, c) =>
      match c.state_opt with
      | none => none
      | some s =>
        match prepare_libfunc_arguments (ctx_with_vars c s (om_swap_remove s.vars arg)) args psigs with
        | none => none
        | some (rest, c) => some (arg_state :: rest, c)
  | _, _ => none

/-- The fold underlying mod.rs store_variables_as_locals: store each
collected (variable, slot, type) triple, checking the variable is still in
the map. -/
def store_locals_fold (c : Ctx) : List (VarId × VarId × TypeId) → Option Ctx
  | [] => some c
  | (var, uninit_local_var_id, ty) :: rest =>
    match c.state_opt with
    | none => none
    | some s =>
      match om_lookup s.vars var with
      | none => none
      | some _ =>
        match store_local (ctx_with_vars c s (om_swap_remove s.vars var))
            var uninit_local_var_id ty with
        | none => none
        | some c => store_locals_fold c rest

/-- mod.rs store_variables_as_locals: collect every variable in the state
that is marked local and currently deferred or temporary, then store each to
its slot (collected first, mutated after). -/
def store_variables_as_locals (c : Ctx) : Option Ctx :=
  match c.state_opt with
  | none => none
  | some s =>
    store_locals_fold c (s.vars.filterMap (fun p =>
      match om_lookup c.local_variables p.1 with
      | some uninit_local_var_id =>
        match p.2 with
        | VarState.Deferred info => some (p.1, uninit_local_var_id, info.ty)
        | VarState.TempVar ty => some (p.1, uninit_local_var_id, ty)
        | VarState.LocalVar => none
      | none => none))

/-- The fold underlying mod.rs store_all_possibly_lost_variables, walking a
snapshot of the variables map. -/
def store_all_fold (c : Ctx) : List (VarId × VarState) → Option Ctx
  | [] => some c
  | (var, var_state) :: rest =>
    match var_state with
    | VarState.TempVar _ =>
      match store_temp_as_local c var with
      | none => none
      | some (_, c) => store_all_fold c rest
    | VarState.Deferred info =>
      if info.kind ≠ DeferredVariableKind.Const then
        match c.state_opt with
        | none => none
        | some s =>
          match store_deferred (ctx_with_vars c s (om_swap_remove s.vars var))
              var info.ty with
          | none => none
          | some (_, c) => store_all_fold c rest
      else store_all_fold c rest
    | VarState.LocalVar => store_all_fold c rest

/-- mod.rs store_all_possibly_lost_variables: store the variables that may
be misaligned or revoked by a branching operation, iterating a clone of the
current variables map. -/
def store_all_possibly_lost_variables (c : Ctx) : Option Ctx :=
  match c.state_opt with
  | none => none
  | some s => store_all_fold c s.vars

/-- The shared tail of one push_values loop iteration: when the value is on
the stack, dup it (keeping the source live) or rename it at zero cost;
otherwise materialise it with store_temp, dupping first when requested. -/
def push_entry_tail (c : Ctx) (pv : PushValue) (var_state : VarState)
    (is_on_stack : Bool) : Option Ctx :=
  if is_on_stack then
    if pv.dup then
      match c.state_opt with
      | none => none
      | some s =>
        some (dup_stmt
          { c with state_opt := some { s with vars := om_insert s.vars pv.var_on_stack var_state } }
          pv.var pv.var_on_stack pv.ty)
    else rename_var c pv.var pv.var_on_stack pv.ty
  else
    if pv.dup then
      store_temp (dup_stmt c pv.var pv.var_on_stack pv.ty) pv.var_on_stack pv.var_on_stack pv.ty
    else store_temp c pv.var pv.var_on_stack pv.ty

/-- The loop of mod.rs push_values over the entries, carrying the entry
index and the size of the leading run already on the stack. -/
def push_values_aux (c : Ctx) : List PushValue → Nat → Nat → Option Ctx
  | [], _, _ => some c
  | pv :: rest, i, run_size =>
    match c.state_opt with
    | none => none
    | some s =>
      match om_lookup s.vars pv.var with
      | none => none
      | some var_state =>
        match var_state with
        | VarState.Deferred info =>
          match info.kind with
          | DeferredVariableKind.Const =>
            if pv.dup then
              match store_temp (dup_stmt (ctx_with_vars c s (om_swap_remove s.vars pv.var)) pv.var pv.var_on_stack pv.ty)
                  pv.var_on_stack pv.var_on_stack pv.ty with
              | none => none
              | some c2 =>
                match c2.state_opt with
                | none => none
                | some s2 =>
                  push_values_aux
                    (ctx_with_vars c2 s2 (om_insert s2.vars pv.var (VarState.Deferred info)))
                    rest (i + 1) run_size
            else
              match store_temp (ctx_with_vars c s (om_swap_remove s.vars pv.var)) pv.var pv.var_on_stack pv.ty with
              | none => none
              | some c2 => push_values_aux c2 rest (i + 1) run_size
          | _ =>
            match store_deferred_ex (ctx_with_vars c s (om_swap_remove s.vars pv.var)) pv.var pv.var_on_stack info.ty with
            | none => none
            | some (VarState.TempVar _, c2) =>
              if pv.dup then
                match c2.state_opt with
                | none => none
                | some s2 =>
                  push_values_aux
                    (dup_stmt
                      (ctx_with_vars c2 s2 (om_insert s2.vars pv.var (VarState.TempVar pv.ty)))
                      pv.var_on_stack pv.var pv.ty)
                    rest (i + 1) run_size
              else push_values_aux c2 rest (i + 1) run_size
            | some (_, c2) =>
              match push_entry_tail c2 pv var_state false with
              | none => none
              | some c3 => push_values_aux c3 rest (i + 1) run_size
        | _ =>
          match push_entry_tail (ctx_with_vars c s (om_insert (om_swap_remove s.vars pv.var) pv.var var_state))
              pv var_state (decide (i < run_size)) with
          | none => none
          | some c3 => push_values_aux c3 rest (i + 1) run_size

/-- mod.rs push_values: an empty request is a no-op; otherwise compute the
leading run already on the stack and process the entries in order.  The
original PushValues pseudo-statement is not appended to the output. -/
def push_values (c : Ctx) (pvs : List PushValue) : Option Ctx :=
  if pvs.isEmpty then some c
  else
    match c.state_opt with
    | none => none
    | some s => push_values_aux c pvs 0 (on_stack_run_size s.known_stack pvs)

/-- Registration of one branch of outputs into the current state of the
driver. -/
def ctx_register_outputs (c : Ctx) (results : List VarId) (bsig : BranchSignature)
    (arg_states : List VarState) : Option Ctx :=
  match c.state_opt with
  | none => none
  | some s =>
    match register_outputs s results bsig arg_states with
    | none => none
    | some s2 => some { c with state_opt := some s2 }

/-- Append one statement to the output list. -/
def append_stmt (st : Statement) (c : Ctx) : Ctx :=
  { c with result := c.result ++ [st] }

/-- The branch loop of mod.rs handle_statement for branching invocations:
clone the current state per branch, register that branch of outputs into
the clone, and merge the clone into the fallthrough accumulator or into the
future state recorded for the target label (mod.rs add_future_state).  The
lists are walked pairwise (a length mismatch models the zip panic). -/
def process_branches (c : Ctx) (arg_states : List VarState) :
    List BranchInfo → List BranchSignature → Option State → Option (Ctx × Option State)
  | [], [], fallthrough_state => some (c, fallthrough_state)
  | b :: bs, bsig :: bsigs, fallthrough_state =>
    match c.state_opt with
    | none => none
    | some s =>
      match register_outputs s b.results bsig arg_states with
      | none => none
      | some state_at_branch =>
        match b.target with
        | BranchTarget.Fallthrough =>
          process_branches c arg_states bs bsigs
            (merge_optional_states fallthrough_state (some state_at_branch))
        | BranchTarget.Statement l =>
          match merge_optional_states (om_lookup c.future_states l) (some state_at_branch) with
          | none => none
          | some new_state =>
            process_branches
              { c with future_states := om_insert (om_swap_remove c.future_states l) l new_state }
              arg_states bs bsigs fallthrough_state
  | _, _, _ => none

/-- The invocation case of mod.rs handle_statement: prepare the arguments,
then either run the simple-invocation path (single fallthrough branch, with
a pre-spill of locals when the ap-change is unknown) or the branching path
(store possibly lost variables when there is more than one branch, then
process each branch), and finally append the original statement. -/
def handle_invocation (c : Ctx) (inv : GenInvocation)
    (get_lib_func_signature : LibfuncId → LibfuncInfo) : Option Ctx :=
  match prepare_libfunc_arguments c inv.args
      (get_lib_func_signature inv.libfunc_id).signature.param_signatures with
  | none => none
  | some (arg_states, c) =>
    match inv.branches with
    | [⟨BranchTarget.Fallthrough, results⟩] =>
      match (get_lib_func_signature inv.libfunc_id).signature.branch_signatures[0]? with
      | none => none
      | some branch_signature =>
        match (match branch_signature.ap_change with
               | SierraApChange.Unknown => store_variables_as_locals c
               | _ => some c) with
        | none => none
        | some c =>
          match ctx_register_outputs c results branch_signature arg_states with
          | none => none
          | some c => some (append_stmt (Statement.Invocation inv) c)
    | _ =>
      match (if 1 < inv.branches.length then store_all_possibly_lost_variables c else some c) with
      | none => none
      | some c =>
        match process_branches c arg_states inv.branches
            (get_lib_func_signature inv.libfunc_id).signature.branch_signatures none with
        | none => none
        | some (c, fallthrough_state) =>
          some (append_stmt (Statement.Invocation inv) { c with state_opt := fallthrough_state })

/-- mod.rs handle_statement: dispatch on the statement kind.  Invocations
and labels are appended after their bookkeeping; a return clears the state
and makes the continuation unreachable; push_values is lowered. -/
def handle_statement (c : Ctx) (st : Statement)
    (get_lib_func_signature : LibfuncId → LibfuncInfo) : Option Ctx :=
  match st with
  | Statement.Invocation inv => handle_invocation c inv get_lib_func_signature
  | Statement.Return _ =>
    match c.state_opt with
    | none => none
    | some _ => some { c with result := c.result ++ [st], state_opt := none }
  | Statement.Label l =>
    some { c with
      result := c.result ++ [st]
      state_opt := merge_optional_states c.state_opt (om_lookup c.future_states l)
      future_states := om_swap_remove c.future_states l }
  | Statement.PushValues pvs => push_values c pvs

/-- The statement loop of add_store_statements. -/
def run_statements (get_lib_func_signature : LibfuncId → LibfuncInfo) (c : Ctx) :
    List Statement → Option Ctx
  | [] => some c
  | st :: rest =>
    match handle_statement c st get_lib_func_signature with
    | none => none
    | some c => run_statements get_lib_func_signature c rest

/-- mod.rs finalize: a reachable state at the end of the function or an
unhandled label is a fatal internal error; otherwise the accumulated output
is returned. -/
def finalize (c : Ctx) : Option (List Statement) :=
  match c.state_opt with
  | some _ => none
  | none => if c.future_states.isEmpty then some c.result else none

/-- The initial driver context (mod.rs AddStoreVariableStatements::new):
every parameter starts as a local variable. -/
def initial_ctx (local_variables : List (VarId × VarId)) (params : List VarId) : Ctx :=
  { local_variables := local_variables
    result := []
    state_opt := some
      { vars := params.foldl (fun m v => om_insert m v VarState.LocalVar) []
        known_stack := [] }
    future_states := [] }

/-- mod.rs add_store_statements: run the handler over the statements and
finalize. -/
def add_store_statements (statements : List Statement)
    (get_lib_func_signature : LibfuncId → LibfuncInfo)
    (local_variables : List (VarId × VarId)) (params : List VarId) :
    Option (List Statement) :=
  match run_statements get_lib_func_signature (initial_ctx local_variables params) statements with
  | none => none
  | some c => finalize c

/-- A statement of the synthesised form: an invocation of one of the four
primitives the pass inserts. -/
def is_synthesized (st : Statement) : Bool :=
  match st with
  | Statement.Invocation inv =>
    match inv.libfunc_id with
    | LibfuncId.StoreTemp _ => true
    | LibfuncId.StoreLocal _ => true
    | LibfuncId.Dup _ => true
    | LibfuncId.Rename _ => true
    | LibfuncId.User _ => false
  | _ => false

/-- Whether a statement is a PushValues pseudo-statement. -/
def is_push_values (st : Statement) : Bool :=
  match st with
  | Statement.PushValues _ => true
  | _ => false

/-- The output of the second context extends the output of the first by
synthesised statements only. -/
def synth_ext (c c2 : Ctx) : Prop :=
  ∃ t, c2.result = c.result ++ t ∧ ∀ x ∈ t, is_synthesized x = true

/-- Signature lookup for the C1 scenario: libfunc 0 has no parameters and
one fallthrough branch producing a new temporary of type 0. -/
def c1_cx_get_info : LibfuncId → LibfuncInfo :=
  fun id =>
    match id with
    | LibfuncId.User 0 => ⟨⟨[], [⟨[⟨0, OutputKind.NewTempVar⟩], SierraApChange.Known 0⟩]⟩⟩
    | _ => ⟨⟨[], []⟩⟩

/-- Input for the C1 scenario: produce a temporary, push it, return it. -/
def c1_cx_input : List Statement :=
  [Statement.Invocation ⟨LibfuncId.User 0, [], [⟨BranchTarget.Fallthrough, [1]⟩]⟩,
   Statement.PushValues [⟨1, 2, 0, false⟩],
   Statement.Return [2]]

/-- Output the pass produces on the C1 scenario: the PushValues request is
lowered into a rename and the pseudo-statement itself disappears. -/
def c1_cx_output : List Statement :=
  [Statement.Invocation ⟨LibfuncId.User 0, [], [⟨BranchTarget.Fallthrough, [1]⟩]⟩,
   simple_statement (LibfuncId.Rename 0) [1] [2],
   Statement.Return [2]]

/-- The allow flag of a parameter signature matching a deferred kind:
allow_const for Const, allow_add_const for AddConst, allow_deferred for
Generic. -/
def allow_flag (k : DeferredVariableKind) (allow_deferred allow_add_const allow_const : Bool) :
    Bool :=
  match k with
  | DeferredVariableKind.Const => allow_const
  | DeferredVariableKind.AddConst => allow_add_const
  | DeferredVariableKind.Generic => allow_deferred

/-- From a reachable state with distinct keys, the second context is
reachable with distinct keys and agrees with the first on every variable
other than k. -/
def touches_only (a b : Ctx) (k : VarId) : Prop :=
  ∀ sa, a.state_opt = some sa → keys_nodup sa.vars →
    ∃ sb, b.state_opt = some sb ∧ keys_nodup sb.vars ∧
      ∀ v, v ≠ k → om_lookup sb.vars v = om_lookup sa.vars v

/-- Whether a statement is a return or a label (control only, no values to
place). -/
def is_control (st : Statement) : Bool :=
  match st with
  | Statement.Return _ => true
  | Statement.Label _ => true
  | _ => false

/-- Signature lookup for the C9 scenario: libfunc 0 produces a new
temporary of type 0, libfunc 1 branches to two labels with no outputs, and
the synthesised store_local takes two arguments (the uninitialised slot and
the value) and produces a new local variable. -/
def c9_get_info : LibfuncId → LibfuncInfo :=
  fun id =>
    match id with
    | LibfuncId.User 0 => ⟨⟨[], [⟨[⟨0, OutputKind.NewTempVar⟩], SierraApChange.Known 0⟩]⟩⟩
    | LibfuncId.User 1 =>
      ⟨⟨[], [⟨[], SierraApChange.Known 0⟩, ⟨[], SierraApChange.Known 0⟩]⟩⟩
    | LibfuncId.StoreLocal _ =>
      ⟨⟨[⟨true, true, true⟩, ⟨true, true, true⟩],
        [⟨[⟨0, OutputKind.NewLocalVar⟩], SierraApChange.Known 0⟩]⟩⟩
    | _ => ⟨⟨[], []⟩⟩

/-- Input for the C9 scenario: produce a temporary that is marked as a
local, then branch over it so that the pass spills it with a store_local. -/
def c9_input : List Statement :=
  [Statement.Invocation ⟨LibfuncId.User 0, [], [⟨BranchTarget.Fallthrough, [1]⟩]⟩,
   Statement.Invocation ⟨LibfuncId.User 1, [],
     [⟨BranchTarget.Statement 0, []⟩, ⟨BranchTarget.Statement 1, []⟩]⟩,
   Statement.Label 0, Statement.Return [], Statement.Label 1, Statement.Return []]

/-- Output of the first run of the pass on the C9 scenario: one store_local
is synthesised before the branching invocation. -/
def c9_out1 : List Statement :=
  [Statement.Invocation ⟨LibfuncId.User 0, [], [⟨BranchTarget.Fallthrough, [1]⟩]⟩,
   simple_statement (LibfuncId.StoreLocal 0) [0, 1] [1],
   Statement.Invocation ⟨LibfuncId.User 1, [],
     [⟨BranchTarget.Statement 0, []⟩, ⟨BranchTarget.Statement 1, []⟩]⟩,
   Statement.Label 0, Statement.Return [], Statement.Label 1, Statement.Return []]

/-! Basic projection lemmas for the driver context. -/

@[simp] theorem ctx_with_vars_result (c : Ctx) (s : State) (m : List (VarId × VarState)) :
    (ctx_with_vars c s m).result = c.result := rfl

@[simp] theorem ctx_with_vars_local_variables (c : Ctx) (s : State) (m : List (VarId × VarState)) :
    (ctx_with_vars c s m).local_variables = c.local_variables := rfl

@[simp] theorem ctx_with_vars_future_states (c : Ctx) (s : State) (m : List (VarId × VarState)) :
    (ctx_with_vars c s m).future_states = c.future_states := rfl

@[simp] theorem ctx_with_vars_state_opt (c : Ctx) (s : State) (m : List (VarId × VarState)) :
    (ctx_with_vars c s m).state_opt = some { s with vars := m } := rfl

@[simp] theorem ctx_mk_state_opt (lv : List (VarId × VarId)) (r : List Statement)
    (so : Option State) (fs : List (LabelId × State)) :
    (⟨lv, r, so, fs⟩ : Ctx).state_opt = so := rfl

/-! Lemmas about the ordered-map operations. -/

section OrderedMapLemmas

variable {κ ν : Type} [DecidableEq κ]

theorem om_lookup_insert_self (m : List (κ × ν)) (k : κ) (x : ν) :
    om_lookup (om_insert m k x) k = some x := by
  induction m with
  | nil => simp [om_insert, om_lookup]
  | cons p rest ih =>
    simp only [om_insert]
    split_ifs with h
    · simp [om_lookup]
    · simp only [om_lookup, if_neg h, ih]

theorem om_lookup_insert_ne (m : List (κ × ν)) (k : κ) (x : ν) (v : κ) (hne : v ≠ k) :
    om_lookup (om_insert m k x) v = om_lookup m v := by
  induction m with
  | nil =>
    simp only [om_insert, om_lookup]
    rw [if_neg (fun h2 => hne h2.symm)]
  | cons p rest ih =>
    simp only [om_insert]
    split_ifs with h
    · simp only [om_lookup]
      rw [if_neg (fun h2 => hne h2.symm), if_neg (fun h2 : p.1 = v => hne (h2 ▸ h : v = k))]
    · simp only [om_lookup, ih]

theorem mem_keys_insert (m : List (κ × ν)) (k : κ) (x : ν) (a : κ) :
    a ∈ (om_insert m k x).map Prod.fst ↔ a ∈ m.map Prod.fst ∨ a = k := by
  induction m with
  | nil => simp [om_insert]
  | cons p rest ih =>
    simp only [om_insert]
    split_ifs with h
    · subst h
      simp only [List.map_cons, List.mem_cons]
      tauto
    · simp only [List.map_cons, List.mem_cons, ih]
      tauto

theorem keys_nodup_insert (m : List (κ × ν)) (k : κ) (x : ν) (h : keys_nodup m) :
    keys_nodup (om_insert m k x) := by
  induction m with
  | nil => simp [om_insert, keys_nodup]
  | cons p rest ih =>
    simp only [keys_nodup, List.map_cons, List.nodup_cons] at h
    simp only [om_insert]
    split_ifs with hk
    · subst hk
      simp only [keys_nodup, List.map_cons, List.nodup_cons]
      exact h
    · simp only [keys_nodup, List.map_cons, List.nodup_cons]
      refine ⟨?_, ih h.2⟩
      rw [mem_keys_insert]
      rintro (h2 | h2)
      · exact h.1 h2
      · exact hk h2

theorem om_lookup_eq_none_iff (m : List (κ × ν)) (a : κ) :
    om_lookup m a = none ↔ a ∉ m.map Prod.fst := by
  induction m with
  | nil => simp [om_lookup]
  | cons p rest ih =>
    simp only [om_lookup, List.map_cons, List.mem_cons]
    split_ifs with h
    · subst h
      simp
    · rw [ih]
      have h2 : ¬ a = p.1 := fun h2 => h h2.symm
      tauto

theorem om_lookup_eq_some_iff (m : List (κ × ν)) (a : κ) (b : ν) (h : keys_nodup m) :
    om_lookup m a = some b ↔ (a, b) ∈ m := by
  induction m with
  | nil => simp [om_lookup]
  | cons p rest ih =>
    simp only [keys_nodup, List.map_cons, List.nodup_cons] at h
    simp only [om_lookup, List.mem_cons]
    split_ifs with hk
    · subst hk
      constructor
      · intro h2
        have h3 : b = p.2 := by injection h2 with h3; exact h3.symm
        subst h3
        exact Or.inl rfl
      · rintro (h2 | h2)
        · rw [← h2]
        · exact absurd (List.mem_map_of_mem Prod.fst h2) h.1
    · constructor
      · intro h2
        exact Or.inr ((ih h.2).mp h2)
      · rintro (h2 | h2)
        · exact absurd (congrArg Prod.fst h2).symm hk
        · exact (ih h.2).mpr h2

theorem mem_swap_remove (m : List (κ × ν)) (k : κ) (x : κ × ν) (h : keys_nodup m) :
    x ∈ om_swap_remove m k ↔ x ∈ m ∧ x.1 ≠ k := by
  induction m with
  | nil => simp [om_swap_remove]
  | cons p rest ih =>
    simp only [keys_nodup, List.map_cons, List.nodup_cons] at h
    simp only [om_swap_remove]
    split_ifs with hk
    · subst hk
      rcases hlast : rest.getLast? with _ | last
      · rw [List.getLast?_eq_none_iff] at hlast
        subst hlast
        simp only [List.not_mem_nil, false_iff, List.mem_cons, List.not_mem_nil, or_false]
        rintro ⟨h2, h3⟩
        exact h3 (congrArg Prod.fst h2)
      · have hrest := List.dropLast_append_getLast? last hlast
        simp only [List.mem_cons]
        constructor
        · intro h2
          have h3 : x ∈ rest := by
            rw [← hrest]
            rcases h2 with h4 | h4
            · exact List.mem_append.mpr (Or.inr (by simp [h4]))
            · exact List.mem_append.mpr (Or.inl h4)
          refine ⟨Or.inr h3, ?_⟩
          intro h4
          exact h.1 (h4 ▸ List.mem_map_of_mem Prod.fst h3)
        · rintro ⟨h2 | h2, h3⟩
          · exact absurd (congrArg Prod.fst h2) h3
          · rw [← hrest] at h2
            rcases List.mem_append.mp h2 with h5 | h5
            · exact Or.inr h5
            · simp only [List.mem_singleton] at h5
              exact Or.inl h5
    · simp only [List.mem_cons, ih h.2]
      constructor
      · rintro (h2 | h2)
        · exact ⟨Or.inl h2, h2 ▸ hk⟩
        · exact ⟨Or.inr h2.1, h2.2⟩
      · rintro ⟨h2 | h2, h3⟩
        · exact Or.inl h2
        · exact Or.inr ⟨h2, h3⟩

theorem keys_nodup_swap_remove (m : List (κ × ν)) (k : κ) (h : keys_nodup m) :
    keys_nodup (om_swap_remove m k) := by
  induction m with
  | nil => simp [om_swap_remove, keys_nodup]
  | cons p rest ih =>
    simp only [keys_nodup, List.map_cons, List.nodup_cons] at h
    simp only [om_swap_remove]
    split_ifs with hk
    · rcases hlast : rest.getLast? with _ | last
      · simp [keys_nodup]
      · have hrest := List.dropLast_append_getLast? last hlast
        have hperm : (last :: rest.dropLast).Perm rest := by
          conv_rhs => rw [← hrest]
          exact (List.perm_append_singleton last rest.dropLast).symm
        unfold keys_nodup
        rw [(hperm.map Prod.fst).nodup_iff]
        exact h.2
    · simp only [keys_nodup, List.map_cons, List.nodup_cons]
      refine ⟨?_, ih h.2⟩
      intro h2
      rcases List.mem_map.mp h2 with ⟨x, hx, hx2⟩
      have h3 := (mem_swap_remove rest k x h.2).mp hx
      exact h.1 (hx2 ▸ List.mem_map_of_mem Prod.fst h3.1)

theorem om_lookup_swap_remove_self (m : List (κ × ν)) (k : κ) (h : keys_nodup m) :
    om_lookup (om_swap_remove m k) k = none := by
  rw [om_lookup_eq_none_iff]
  intro h2
  rcases List.mem_map.mp h2 with ⟨x, hx, hx2⟩
  exact ((mem_swap_remove m k x h).mp hx).2 hx2

theorem om_lookup_swap_remove_ne (m : List (κ × ν)) (k : κ) (v : κ) (h : keys_nodup m)
    (hne : v ≠ k) : om_lookup (om_swap_remove m k) v = om_lookup m v := by
  match h2 : om_lookup m v with
  | some b =>
    rw [om_lookup_eq_some_iff m v b h] at h2
    rw [om_lookup_eq_some_iff _ v b (keys_nodup_swap_remove m k h)]
    exact (mem_swap_remove m k (v, b) h).mpr ⟨h2, hne⟩
  | none =>
    rw [om_lookup_eq_none_iff] at h2 ⊢
    intro h3
    rcases List.mem_map.mp h3 with ⟨x, hx, hx2⟩
    exact h2 (hx2 ▸ List.mem_map_of_mem Prod.fst ((mem_swap_remove m k x h).mp hx).1)

end OrderedMapLemmas

/-! Output-extension lemmas: every helper of the pass only appends
synthesised statements to the output list. -/

theorem synth_ext_refl (c : Ctx) : synth_ext c c :=
  ⟨[], by simp, by simp⟩

theorem synth_ext_trans {a b c : Ctx} (h1 : synth_ext a b) (h2 : synth_ext b c) :
    synth_ext a c := by
  obtain ⟨t1, e1, s1⟩ := h1
  obtain ⟨t2, e2, s2⟩ := h2
  refine ⟨t1 ++ t2, by rw [e2, e1, List.append_assoc], ?_⟩
  intro x hx
  rcases List.mem_append.mp hx with h | h
  · exact s1 x h
  · exact s2 x h

theorem synth_ext_same_result {a b : Ctx} (h : b.result = a.result) : synth_ext a b :=
  ⟨[], by simp [h], by simp⟩

theorem synth_ext_of_step {a b c2 : Ctx} (h : synth_ext b c2) (hres : b.result = a.result) :
    synth_ext a c2 :=
  synth_ext_trans (synth_ext_same_result hres) h

theorem store_temp_synth_ext {c c2 : Ctx} {v w : VarId} {ty : TypeId}
    (h : store_temp c v w ty = some c2) : synth_ext c c2 := by
  unfold store_temp at h
  split at h
  · exact absurd h (by simp)
  · injection h with h
    subst h
    exact ⟨[simple_statement (LibfuncId.StoreTemp ty) [v] [w]], rfl,
      by simp [is_synthesized, simple_statement]⟩

theorem store_local_synth_ext {c c2 : Ctx} {v u : VarId} {ty : TypeId}
    (h : store_local c v u ty = some c2) : synth_ext c c2 := by
  unfold store_local at h
  split at h
  · exact absurd h (by simp)
  · injection h with h
    subst h
    exact ⟨[simple_statement (LibfuncId.StoreLocal ty) [u, v] [v]], rfl,
      by simp [is_synthesized, simple_statement]⟩

theorem dup_stmt_synth_ext (c : Ctx) (v w : VarId) (ty : TypeId) :
    synth_ext c (dup_stmt c v w ty) :=
  ⟨[simple_statement (LibfuncId.Dup ty) [v] [v, w]], rfl,
    by simp [is_synthesized, simple_statement]⟩

theorem rename_var_synth_ext {c c2 : Ctx} {v w : VarId} {ty : TypeId}
    (h : rename_var c v w ty = some c2) : synth_ext c c2 := by
  unfold rename_var at h
  split at h
  · exact absurd h (by simp)
  · injection h with h
    subst h
    exact ⟨[simple_statement (LibfuncId.Rename ty) [v] [w]], rfl,
      by simp [is_synthesized, simple_statement]⟩

theorem store_deferred_ex_synth_ext {c c2 : Ctx} {v w : VarId} {ty : TypeId} {vs : VarState}
    (h : store_deferred_ex c v w ty = some (vs, c2)) : synth_ext c c2 := by
  unfold store_deferred_ex at h
  split at h
  · split at h
    · exact absurd h (by simp)
    · injection h with h
      rw [Prod.mk.injEq] at h
      exact h.2 ▸ store_local_synth_ext (by assumption)
  · split at h
    · exact absurd h (by simp)
    · injection h with h
      rw [Prod.mk.injEq] at h
      exact h.2 ▸ store_temp_synth_ext (by assumption)

theorem store_deferred_synth_ext {c c2 : Ctx} {v : VarId} {ty : TypeId} {vs : VarState}
    (h : store_deferred c v ty = some (vs, c2)) : synth_ext c c2 :=
  store_deferred_ex_synth_ext h

theorem store_temp_as_local_synth_ext {c c2 : Ctx} {v : VarId} {b : Bool}
    (h : store_temp_as_local c v = some (b, c2)) : synth_ext c c2 := by
  unfold store_temp_as_local at h
  split at h
  · split at h
    · exact absurd h (by simp)
    · split at h
      · exact absurd h (by simp)
      · split at h
        · split at h
          · exact absurd h (by simp)
          · rename_i heq
            injection h with h
            rw [Prod.mk.injEq] at h
            exact h.2 ▸ synth_ext_of_step (store_local_synth_ext heq) rfl
        · exact absurd h (by simp)
  · injection h with h
    rw [Prod.mk.injEq] at h
    exact h.2 ▸ synth_ext_refl c

theorem prepare_libfunc_argument_synth_ext {c c2 : Ctx} {arg : VarId}
    {f1 f2 f3 : Bool} {vs : VarState}
    (h : prepare_libfunc_argument c arg f1 f2 f3 = some (vs, c2)) : synth_ext c c2 := by
  unfold prepare_libfunc_argument at h
  split at h
  · exact absurd h (by simp)
  · split at h
    · exact absurd h (by simp)
    · split at h
      · split at h
        · exact synth_ext_of_step (store_deferred_synth_ext h) rfl
        · split at h
          · split at h
            · exact synth_ext_of_step (store_deferred_synth_ext h) rfl
            · injection h with h
              rw [Prod.mk.injEq] at h
              exact h.2 ▸ synth_ext_same_result rfl
          · split at h
            · exact synth_ext_of_step (store_deferred_synth_ext h) rfl
            · injection h with h
              rw [Prod.mk.injEq] at h
              exact h.2 ▸ synth_ext_same_result rfl
          · split at h
            · exact synth_ext_of_step (store_deferred_synth_ext h) rfl
            · injection h with h
              rw [Prod.mk.injEq] at h
              exact h.2 ▸ synth_ext_same_result rfl
      · split at h
        · exact absurd h (by simp)
        · rename_i heq
          injection h with h
          rw [Prod.mk.injEq] at h
          exact h.2 ▸ synth_ext_of_step (store_temp_as_local_synth_ext heq) rfl
        · rename_i heq
          injection h with h
          rw [Prod.mk.injEq] at h
          exact h.2 ▸ synth_ext_of_step (store_temp_as_local_synth_ext heq) rfl
      · injection h with h
        rw [Prod.mk.injEq] at h
        exact h.2 ▸ synth_ext_same_result rfl

theorem prepare_libfunc_arguments_synth_ext :
    ∀ (args : List VarId) (psigs : List ParamSignature) (c c2 : Ctx) (sts : List VarState),
      prepare_libfunc_arguments c args psigs = some (sts, c2) → synth_ext c c2 := by
  intro args
  induction args with
  | nil =>
    intro psigs c c2 sts h
    cases psigs with
    | nil =>
      unfold prepare_libfunc_arguments at h
      injection h with h
      rw [Prod.mk.injEq] at h
      exact h.2 ▸ synth_ext_refl c
    | cons p ps => exact absurd h (by simp [prepare_libfunc_arguments])
  | cons a rest ih =>
    intro psigs c c2 sts h
    cases psigs with
    | nil => exact absurd h (by simp [prepare_libfunc_arguments])
    | cons p ps =>
      unfold prepare_libfunc_arguments at h
      split at h
      · exact absurd h (by simp)
      · rename_i heq
        split at h
        · exact absurd h (by simp)
        · split at h
          · exact absurd h (by simp)
          · rename_i heq2
            injection h with h
            rw [Prod.mk.injEq] at h
            have h3 := ih ps _ _ _ heq2
            exact synth_ext_trans (prepare_libfunc_argument_synth_ext heq)
              (synth_ext_of_step (h.2 ▸ h3) rfl)

theorem store_locals_fold_synth_ext :
    ∀ (l : List (VarId × VarId × TypeId)) (c c2 : Ctx),
      store_locals_fold c l = some c2 → synth_ext c c2 := by
  intro l
  induction l with
  | nil =>
    intro c c2 h
    unfold store_locals_fold at h
    injection h with h
    exact h ▸ synth_ext_refl c
  | cons p rest ih =>
    intro c c2 h
    obtain ⟨v, u, ty⟩ := p
    unfold store_locals_fold at h
    split at h
    · exact absurd h (by simp)
    · split at h
      · exact absurd h (by simp)
      · split at h
        · exact absurd h (by simp)
        · rename_i heq
          exact synth_ext_trans (synth_ext_of_step (store_local_synth_ext heq) rfl) (ih _ _ h)

theorem store_variables_as_locals_synth_ext {c c2 : Ctx}
    (h : store_variables_as_locals c = some c2) : synth_ext c c2 := by
  unfold store_variables_as_locals at h
  split at h
  · exact absurd h (by simp)
  · exact store_locals_fold_synth_ext _ _ _ h

theorem store_all_fold_synth_ext :
    ∀ (l : List (VarId × VarState)) (c c2 : Ctx),
      store_all_fold c l = some c2 → synth_ext c c2 := by
  intro l
  induction l with
  | nil =>
    intro c c2 h
    unfold store_all_fold at h
    injection h with h
    exact h ▸ synth_ext_refl c
  | cons p rest ih =>
    intro c c2 h
    obtain ⟨v, vs⟩ := p
    unfold store_all_fold at h
    split at h
    · split at h
      · exact absurd h (by simp)
      · rename_i heq
        exact synth_ext_trans (store_temp_as_local_synth_ext heq) (ih _ _ h)
    · split at h
      · split at h
        · exact absurd h (by simp)
        · split at h
          · exact absurd h (by simp)
          · rename_i heq
            exact synth_ext_trans (synth_ext_of_step (store_deferred_synth_ext heq) rfl) (ih _ _ h)
      · exact ih _ _ h
    · exact ih _ _ h

theorem store_all_possibly_lost_variables_synth_ext {c c2 : Ctx}
    (h : store_all_possibly_lost_variables c = some c2) : synth_ext c c2 := by
  unfold store_all_possibly_lost_variables at h
  split at h
  · exact absurd h (by simp)
  · exact store_all_fold_synth_ext _ _ _ h

theorem push_entry_tail_synth_ext {c c2 : Ctx} {pv : PushValue} {vs : VarState} {b : Bool}
    (h : push_entry_tail c pv vs b = some c2) : synth_ext c c2 := by
  unfold push_entry_tail at h
  split at h
  · split at h
    · split at h
      · exact absurd h (by simp)
      · injection h with h
        exact h ▸ synth_ext_of_step (dup_stmt_synth_ext _ _ _ _) rfl
    · exact rename_var_synth_ext h
  · split at h
    · exact synth_ext_trans (dup_stmt_synth_ext c pv.var pv.var_on_stack pv.ty)
        (store_temp_synth_ext h)
    · exact store_temp_synth_ext h

theorem synth_ext_dup_pre {a b c2 : Ctx} {v w : VarId} {ty : TypeId}
    (h : synth_ext (dup_stmt b v w ty) c2) (hres : b.result = a.result) : synth_ext a c2 := by
  refine synth_ext_trans ?_ h
  refine ⟨[simple_statement (LibfuncId.Dup ty) [v] [v, w]], ?_, ?_⟩
  · simp [dup_stmt, hres]
  · simp [is_synthesized, simple_statement]

theorem push_values_aux_synth_ext :
    ∀ (pvs : List PushValue) (i run_size : Nat) (c c2 : Ctx),
      push_values_aux c pvs i run_size = some c2 → synth_ext c c2 := by
  intro pvs
  induction pvs with
  | nil =>
    intro i run_size c c2 h
    unfold push_values_aux at h
    injection h with h
    exact h ▸ synth_ext_refl c
  | cons pv rest ih =>
    intro i run_size c c2 h
    unfold push_values_aux at h
    split at h
    · exact absurd h (by simp)
    · split at h
      · exact absurd h (by simp)
      · split at h
        · split at h
          · split at h
            · split at h
              · exact absurd h (by simp)
              · rename_i heqA
                split at h
                · exact absurd h (by simp)
                · exact synth_ext_trans (synth_ext_dup_pre (store_temp_synth_ext heqA) rfl)
                    (synth_ext_of_step (ih _ _ _ _ h) rfl)
            · split at h
              · exact absurd h (by simp)
              · rename_i heqA
                exact synth_ext_trans (synth_ext_of_step (store_temp_synth_ext heqA) rfl)
                  (ih _ _ _ _ h)
          · split at h
            · exact absurd h (by simp)
            · rename_i heqA
              split at h
              · split at h
                · exact absurd h (by simp)
                · exact synth_ext_trans (synth_ext_of_step (store_deferred_ex_synth_ext heqA) rfl)
                    (synth_ext_dup_pre (ih _ _ _ _ h) rfl)
              · exact synth_ext_trans (synth_ext_of_step (store_deferred_ex_synth_ext heqA) rfl)
                  (ih _ _ _ _ h)
            · rename_i heqA
              split at h
              · exact absurd h (by simp)
              · rename_i heqB
                exact synth_ext_trans (synth_ext_trans
                  (synth_ext_of_step (store_deferred_ex_synth_ext heqA) rfl)
                  (push_entry_tail_synth_ext heqB)) (ih _ _ _ _ h)
        · split at h
          · exact absurd h (by simp)
          · rename_i heqB
            exact synth_ext_trans (synth_ext_of_step (push_entry_tail_synth_ext heqB) rfl)
              (ih _ _ _ _ h)

theorem push_values_synth_ext {c c2 : Ctx} {pvs : List PushValue}
    (h : push_values c pvs = some c2) : synth_ext c c2 := by
  unfold push_values at h
  split at h
  · injection h with h
    exact h ▸ synth_ext_refl c
  · split at h
    · exact absurd h (by simp)
    · exact push_values_aux_synth_ext _ _ _ _ _ h

theorem ctx_register_outputs_result {c c2 : Ctx} {results : List VarId}
    {bsig : BranchSignature} {arg_states : List VarState}
    (h : ctx_register_outputs c results bsig arg_states = some c2) : c2.result = c.result := by
  unfold ctx_register_outputs at h
  split at h
  · exact absurd h (by simp)
  · split at h
    · exact absurd h (by simp)
    · injection h with h
      rw [← h]

theorem process_branches_result :
    ∀ (bs : List BranchInfo) (bsigs : List BranchSignature) (c c2 : Ctx)
      (arg_states : List VarState) (ft ft2 : Option State),
      process_branches c arg_states bs bsigs ft = some (c2, ft2) → c2.result = c.result := by
  intro bs
  induction bs with
  | nil =>
    intro bsigs c c2 arg_states ft ft2 h
    cases bsigs with
    | nil =>
      unfold process_branches at h
      injection h with h
      rw [Prod.mk.injEq] at h
      rw [← h.1]
    | cons b rest => exact absurd h (by simp [process_branches])
  | cons b rest ih =>
    intro bsigs c c2 arg_states ft ft2 h
    cases bsigs with
    | nil => exact absurd h (by simp [process_branches])
    | cons bsig bsigs =>
      unfold process_branches at h
      split at h
      · exact absurd h (by simp)
      · split at h
        · exact absurd h (by simp)
        · split at h
          · have h3 := ih _ _ _ _ _ _ h
            exact h3
          · split at h
            · exact absurd h (by simp)
            · have h3 := ih _ _ _ _ _ _ h
              exact h3

theorem synth_ext_filter {c c2 : Ctx} (h : synth_ext c c2) :
    c2.result.filter (fun x => !is_synthesized x) =
      c.result.filter (fun x => !is_synthesized x) := by
  obtain ⟨t, e, hall⟩ := h
  rw [e, List.filter_append]
  have h2 : t.filter (fun x => !is_synthesized x) = [] :=
    List.filter_eq_nil_iff.mpr (by intro a ha; simp [hall a ha])
  rw [h2, List.append_nil]

theorem handle_invocation_shape {c c2 : Ctx} {inv : GenInvocation}
    {g : LibfuncId → LibfuncInfo} (h : handle_invocation c inv g = some c2) :
    ∃ cmid, synth_ext c cmid ∧ c2 = append_stmt (Statement.Invocation inv) cmid := by
  unfold handle_invocation at h
  split at h
  · exact absurd h (by simp)
  · rename_i heqP
    split at h
    · split at h
      · exact absurd h (by simp)
      · split at h
        · exact absurd h (by simp)
        · rename_i heqS
          split at h
          · exact absurd h (by simp)
          · rename_i heqR
            injection h with h
            refine ⟨_, ?_, h.symm⟩
            refine synth_ext_trans (prepare_libfunc_arguments_synth_ext _ _ _ _ _ heqP) ?_
            refine synth_ext_trans ?_ (synth_ext_same_result (ctx_register_outputs_result heqR))
            split at heqS
            · exact store_variables_as_locals_synth_ext heqS
            · injection heqS with heqS
              exact heqS ▸ synth_ext_refl _
    · split at h
      · exact absurd h (by simp)
      · rename_i heqS
        split at h
        · exact absurd h (by simp)
        · rename_i heqB
          injection h with h
          refine ⟨_, ?_, h.symm⟩
          refine synth_ext_trans (prepare_libfunc_arguments_synth_ext _ _ _ _ _ heqP) ?_
          have h3 : synth_ext _ _ := synth_ext_same_result (process_branches_result _ _ _ _ _ _ _ heqB)
          refine synth_ext_trans ?_ (synth_ext_trans h3 (synth_ext_same_result rfl))
          split at heqS
          · exact store_all_possibly_lost_variables_synth_ext heqS
          · injection heqS with heqS
            exact heqS ▸ synth_ext_refl _

theorem handle_statement_filter {c c2 : Ctx} {st : Statement} {g : LibfuncId → LibfuncInfo}
    (h : handle_statement c st g = some c2) (hs : is_synthesized st = false) :
    c2.result.filter (fun x => !is_synthesized x) =
      c.result.filter (fun x => !is_synthesized x) ++
        (if is_push_values st then [] else [st]) := by
  match st with
  | Statement.Invocation inv =>
    obtain ⟨cmid, hext, hc2⟩ := handle_invocation_shape h
    subst hc2
    show (cmid.result ++ [Statement.Invocation inv]).filter _ = _
    rw [List.filter_append, synth_ext_filter hext]
    simp [is_push_values, List.filter, hs]
  | Statement.Return vs =>
    simp only [handle_statement] at h
    split at h
    · exact absurd h (by simp)
    · injection h with h
      subst h
      show (c.result ++ [Statement.Return vs]).filter _ = _
      rw [List.filter_append]
      simp [is_push_values, List.filter, hs]
  | Statement.Label l =>
    simp only [handle_statement] at h
    injection h with h
    subst h
    show (c.result ++ [Statement.Label l]).filter _ = _
    rw [List.filter_append]
    simp [is_push_values, List.filter, hs]
  | Statement.PushValues pvs =>
    simp only [handle_statement] at h
    have hext := push_values_synth_ext h
    rw [synth_ext_filter hext]
    simp [is_push_values]

theorem run_statements_filter :
    ∀ (stmts : List Statement) (g : LibfuncId → LibfuncInfo) (c c2 : Ctx),
      run_statements g c stmts = some c2 →
      (∀ st ∈ stmts, is_synthesized st = false) →
      c2.result.filter (fun x => !is_synthesized x) =
        c.result.filter (fun x => !is_synthesized x) ++
          stmts.filter (fun st => !is_push_values st) := by
  intro stmts
  induction stmts with
  | nil =>
    intro g c c2 h hclean
    unfold run_statements at h
    injection h with h
    simp [h]
  | cons st rest ih =>
    intro g c c2 h hclean
    unfold run_statements at h
    split at h
    · exact absurd h (by simp)
    · rename_i heq
      have h2 := handle_statement_filter heq (hclean st (by simp))
      have h3 := ih g _ _ h (fun x hx => hclean x (by simp [hx]))
      rw [h3, h2]
      by_cases hp : is_push_values st
      · simp [hp, List.filter]
      · simp only [List.filter, hp]
        simp only [Bool.not_eq_true] at hp
        simp [hp, List.append_assoc]

/-! Concrete scenario used for claim C1: a temporary produced by a user
libfunc is pushed through a PushValues request and returned. -/

/-- C1 counterexample: on a well-formed input containing a PushValues
statement, deleting all inserted store/dup/rename invocations from the
output of add_store_statements does not yield the input: the PushValues
statement was lowered away, so the claim as stated is false. -/
theorem c1_counterexample :
    add_store_statements c1_cx_input c1_cx_get_info [] [] = some c1_cx_output ∧
    ¬ (c1_cx_output.filter (fun x => !is_synthesized x) = c1_cx_input) := by
  constructor
  · decide
  · decide

/-- C1 (amended): for every well-formed input (one without pre-existing
synthesised store/dup/rename invocations) on which add_store_statements
succeeds, deleting all inserted store_temp/store_local/dup/rename
invocations from the output yields exactly the input statement list with
its PushValues statements removed; every other input statement appears in
the output in its original order, while PushValues pseudo-statements are
lowered into the inserted stores and do not appear. -/
theorem c1_order_preserving_amended
    (stmts : List Statement) (g : LibfuncId → LibfuncInfo)
    (lv : List (VarId × VarId)) (params : List VarId) (out : List Statement)
    (h : add_store_statements stmts g lv params = some out)
    (hclean : ∀ st ∈ stmts, is_synthesized st = false) :
    out.filter (fun x => !is_synthesized x) =
      stmts.filter (fun st => !is_push_values st) := by
  unfold add_store_statements at h
  split at h
  · exact absurd h (by simp)
  · rename_i heqR
    have h2 := run_statements_filter _ _ _ _ heqR hclean
    unfold finalize at h
    split at h
    · exact absurd h (by simp)
    · split at h
      · injection h with h
        rw [h] at h2
        rw [h2]
        show List.filter _ (initial_ctx lv params).result ++ _ = _
        simp [initial_ctx]
      · exact absurd h (by simp)

/-- C1 witness: the amended statement instantiated on the concrete
scenario. -/
theorem c1_witness :
    add_store_statements c1_cx_input c1_cx_get_info [] [] = some c1_cx_output ∧
    (∀ st ∈ c1_cx_input, is_synthesized st = false) ∧
    c1_cx_output.filter (fun x => !is_synthesized x) =
      c1_cx_input.filter (fun st => !is_push_values st) :=
  ⟨by decide, by decide,
    c1_order_preserving_amended c1_cx_input c1_cx_get_info [] [] c1_cx_output
      (by decide) (by decide)⟩

/-- C7: finalize, and hence add_store_statements, aborts exactly when after
processing all statements the current state is still reachable or the
pending future-states map is non-empty; otherwise the accumulated output is
returned. -/
theorem c7_finalize_behaviour
    (stmts : List Statement) (g : LibfuncId → LibfuncInfo)
    (lv : List (VarId × VarId)) (params : List VarId) (c : Ctx)
    (h : run_statements g (initial_ctx lv params) stmts = some c) :
    (add_store_statements stmts g lv params = none ↔
      (c.state_opt ≠ none ∨ c.future_states ≠ [])) ∧
    (∀ out, add_store_statements stmts g lv params = some out ↔
      (c.state_opt = none ∧ c.future_states = [] ∧ out = c.result)) := by
  have hsome : ∀ out, finalize c = some out ↔
      (c.state_opt = none ∧ c.future_states = [] ∧ out = c.result) := by
    intro out
    unfold finalize
    match hs : c.state_opt with
    | some s => simp [hs]
    | none =>
      simp only [hs]
      by_cases hf : c.future_states.isEmpty
      · rw [if_pos hf]
        simp [List.isEmpty_iff.mp hf, eq_comm]
      · rw [if_neg hf]
        have h3 : ¬ c.future_states = [] := fun h4 => hf (by simp [h4])
        simp [h3]
  have hnone : finalize c = none ↔ (c.state_opt ≠ none ∨ c.future_states ≠ []) := by
    match hfin : finalize c with
    | some out =>
      rw [hsome out] at hfin
      simp only [hfin.1, hfin.2.1]
      simp
    | none =>
      simp only [iff_true_intro rfl, true_iff]
      by_contra h3
      push_neg at h3
      have h4 := (hsome c.result).mpr ⟨h3.1, h3.2, rfl⟩
      rw [hfin] at h4
      exact absurd h4 (by simp)
  constructor
  · unfold add_store_statements
    rw [h]
    exact hnone
  · intro out
    unfold add_store_statements
    rw [h]
    exact hsome out

/-- C7 witness: the characterisation instantiated on a single return
statement, whose processing ends with an unreachable state and no pending
labels. -/
theorem c7_witness :
    run_statements (fun _ => ⟨⟨[], []⟩⟩) (initial_ctx [] []) [Statement.Return []] =
      some ⟨[], [Statement.Return []], none, []⟩ ∧
    (add_store_statements [Statement.Return []] (fun _ => ⟨⟨[], []⟩⟩) [] [] =
        some [Statement.Return []] ↔
      ((none : Option State) = none ∧ ([] : List (LabelId × State)) = [] ∧
        [Statement.Return []] = [Statement.Return []])) :=
  ⟨by decide,
    (c7_finalize_behaviour [Statement.Return []] (fun _ => ⟨⟨[], []⟩⟩) [] []
      ⟨[], [Statement.Return []], none, []⟩ (by decide)).2 [Statement.Return []]⟩

/-- C8: the pass is deterministic: its output depends only on the statement
list, the extension of the libfunc-signature lookup, the local-variables
map and the parameter list; two lookups that agree pointwise give identical
outputs. -/
theorem c8_determinism (g1 g2 : LibfuncId → LibfuncInfo)
    (hg : ∀ id, g1 id = g2 id)
    (stmts : List Statement) (lv : List (VarId × VarId)) (params : List VarId) :
    add_store_statements stmts g1 lv params = add_store_statements stmts g2 lv params := by
  have h : g1 = g2 := funext hg
  rw [h]

/-- C8 witness: two syntactically different but pointwise equal lookups
give the same output on the C1 scenario input. -/
theorem c8_witness :
    (∀ id, c1_cx_get_info id =
      (fun i => match i with
        | LibfuncId.User 0 => ⟨⟨[], [⟨[⟨0, OutputKind.NewTempVar⟩], SierraApChange.Known 0⟩]⟩⟩
        | _ => (⟨⟨[], []⟩⟩ : LibfuncInfo)) id) ∧
    add_store_statements c1_cx_input c1_cx_get_info [] [] =
      add_store_statements c1_cx_input
        (fun i => match i with
          | LibfuncId.User 0 => ⟨⟨[], [⟨[⟨0, OutputKind.NewTempVar⟩], SierraApChange.Known 0⟩]⟩⟩
          | _ => (⟨⟨[], []⟩⟩ : LibfuncInfo)) [] [] :=
  ⟨fun id => by cases id <;> rfl,
    c8_determinism c1_cx_get_info _ (fun id => by cases id <;> rfl) c1_cx_input [] []⟩

/-- C10: processing a PushValues statement with an empty entry list emits
no output statements and leaves the whole driver context, in particular the
variables map and the known stack, unchanged. -/
theorem c10_empty_push_values (c : Ctx) (g : LibfuncId → LibfuncInfo) :
    handle_statement c (Statement.PushValues []) g = some c := by
  simp [handle_statement, push_values]

/-- C2: preparing an argument whose current state is Deferred: if the
argument is in local_variables a store_local (not a store_temp) is emitted
and LocalVar is returned; otherwise, if the allow flag matching the
deferred kind is set, the state is returned as Deferred unchanged with no
store emitted; otherwise a single store_temp is emitted and TempVar is
returned. -/
theorem c2_deferred_argument
    (c : Ctx) (s : State) (arg : VarId) (info : DeferredVariableInfo)
    (ad aac ac : Bool)
    (hst : c.state_opt = some s)
    (hlook : om_lookup s.vars arg = some (VarState.Deferred info)) :
    (∀ u, om_lookup c.local_variables arg = some u →
      ∃ c2, prepare_libfunc_argument c arg ad aac ac = some (VarState.LocalVar, c2) ∧
        c2.result = c.result ++
          [simple_statement (LibfuncId.StoreLocal info.ty) [u, arg] [arg]]) ∧
    (om_lookup c.local_variables arg = none → allow_flag info.kind ad aac ac = true →
      ∃ c2, prepare_libfunc_argument c arg ad aac ac = some (VarState.Deferred info, c2) ∧
        c2.result = c.result) ∧
    (om_lookup c.local_variables arg = none → allow_flag info.kind ad aac ac = false →
      ∃ c2, prepare_libfunc_argument c arg ad aac ac = some (VarState.TempVar info.ty, c2) ∧
        c2.result = c.result ++
          [simple_statement (LibfuncId.StoreTemp info.ty) [arg] [arg]]) := by
  refine ⟨?_, ?_, ?_⟩
  · intro u hu
    refine ⟨⟨c.local_variables,
      c.result ++ [simple_statement (LibfuncId.StoreLocal info.ty) [u, arg] [arg]],
      some ⟨om_insert (om_swap_remove s.vars arg) arg VarState.LocalVar, s.known_stack⟩,
      c.future_states⟩, ?_, rfl⟩
    simp [prepare_libfunc_argument, hst, hlook, hu, store_deferred, store_deferred_ex,
      store_local, ctx_with_vars]
  · intro h0 hallow
    refine ⟨⟨c.local_variables, c.result,
      some ⟨om_swap_remove s.vars arg, s.known_stack⟩, c.future_states⟩, ?_, rfl⟩
    match hk : info.kind with
    | DeferredVariableKind.Const =>
      rw [allow_flag.eq_def, hk] at hallow
      simp only [] at hallow
      simp [prepare_libfunc_argument, hst, hlook, h0, hk, hallow, ctx_with_vars]
    | DeferredVariableKind.AddConst =>
      rw [allow_flag.eq_def, hk] at hallow
      simp only [] at hallow
      simp [prepare_libfunc_argument, hst, hlook, h0, hk, hallow, ctx_with_vars]
    | DeferredVariableKind.Generic =>
      rw [allow_flag.eq_def, hk] at hallow
      simp only [] at hallow
      simp [prepare_libfunc_argument, hst, hlook, h0, hk, hallow, ctx_with_vars]
  · intro h0 hallow
    refine ⟨⟨c.local_variables,
      c.result ++ [simple_statement (LibfuncId.StoreTemp info.ty) [arg] [arg]],
      some ⟨om_insert (om_swap_remove s.vars arg) arg (VarState.TempVar info.ty),
        s.known_stack ++ [arg]⟩,
      c.future_states⟩, ?_, rfl⟩
    match hk : info.kind with
    | DeferredVariableKind.Const =>
      rw [allow_flag.eq_def, hk] at hallow
      simp only [] at hallow
      simp [prepare_libfunc_argument, hst, hlook, h0, hk, hallow, store_deferred,
        store_deferred_ex, store_temp, ctx_with_vars]
    | DeferredVariableKind.AddConst =>
      rw [allow_flag.eq_def, hk] at hallow
      simp only [] at hallow
      simp [prepare_libfunc_argument, hst, hlook, h0, hk, hallow, store_deferred,
        store_deferred_ex, store_temp, ctx_with_vars]
    | DeferredVariableKind.Generic =>
      rw [allow_flag.eq_def, hk] at hallow
      simp only [] at hallow
      simp [prepare_libfunc_argument, hst, hlook, h0, hk, hallow, store_deferred,
        store_deferred_ex, store_temp, ctx_with_vars]

/-- C2 witness: the three cases instantiated on concrete contexts: a local
deferred argument, an allowed const, and a disallowed const. -/
theorem c2_witness :
    ((⟨[(7, 9)], [], some ⟨[(7, VarState.Deferred ⟨DeferredVariableKind.Const, 3⟩)], []⟩,
        []⟩ : Ctx).state_opt =
      some ⟨[(7, VarState.Deferred ⟨DeferredVariableKind.Const, 3⟩)], []⟩) ∧
    (∀ u, om_lookup ([(7, 9)] : List (VarId × VarId)) 7 = some u →
      ∃ c2, prepare_libfunc_argument
          ⟨[(7, 9)], [], some ⟨[(7, VarState.Deferred ⟨DeferredVariableKind.Const, 3⟩)], []⟩, []⟩
          7 true true true = some (VarState.LocalVar, c2) ∧
        c2.result = [] ++ [simple_statement (LibfuncId.StoreLocal 3) [u, 7] [7]]) :=
  ⟨rfl,
    (c2_deferred_argument
      ⟨[(7, 9)], [], some ⟨[(7, VarState.Deferred ⟨DeferredVariableKind.Const, 3⟩)], []⟩, []⟩
      ⟨[(7, VarState.Deferred ⟨DeferredVariableKind.Const, 3⟩)], []⟩ 7
      ⟨DeferredVariableKind.Const, 3⟩ true true true rfl (by decide)).1⟩

/-- C6: processing a PushValues entry whose variable state is Deferred with
kind Const: with dup requested the pass emits a dup of var into
var_on_stack followed by a store_temp of var_on_stack, and re-inserts var
with its deferred state unchanged; without dup it emits a single store_temp
of var into var_on_stack and var is not re-inserted. -/
theorem c6_push_const_deferred
    (c : Ctx) (s : State) (pv : PushValue) (rest : List PushValue)
    (i run_size : Nat) (info : DeferredVariableInfo)
    (hst : c.state_opt = some s)
    (hnodup : keys_nodup s.vars)
    (hlook : om_lookup s.vars pv.var = some (VarState.Deferred info))
    (hkind : info.kind = DeferredVariableKind.Const) :
    (pv.dup = true →
      ∃ c2 s2, push_values_aux c (pv :: rest) i run_size =
          push_values_aux c2 rest (i + 1) run_size ∧
        c2.result = c.result ++
          [simple_statement (LibfuncId.Dup pv.ty) [pv.var] [pv.var, pv.var_on_stack],
           simple_statement (LibfuncId.StoreTemp pv.ty) [pv.var_on_stack] [pv.var_on_stack]] ∧
        c2.state_opt = some s2 ∧
        om_lookup s2.vars pv.var = some (VarState.Deferred info)) ∧
    (pv.dup = false →
      ∃ c2 s2, push_values_aux c (pv :: rest) i run_size =
          push_values_aux c2 rest (i + 1) run_size ∧
        c2.result = c.result ++
          [simple_statement (LibfuncId.StoreTemp pv.ty) [pv.var] [pv.var_on_stack]] ∧
        c2.state_opt = some s2 ∧
        (pv.var ≠ pv.var_on_stack → om_lookup s2.vars pv.var = none)) := by
  constructor
  · intro hdup
    refine ⟨⟨c.local_variables,
      c.result ++
        [simple_statement (LibfuncId.Dup pv.ty) [pv.var] [pv.var, pv.var_on_stack],
         simple_statement (LibfuncId.StoreTemp pv.ty) [pv.var_on_stack] [pv.var_on_stack]],
      some ⟨om_insert (om_insert (om_swap_remove s.vars pv.var) pv.var_on_stack
          (VarState.TempVar pv.ty)) pv.var (VarState.Deferred info),
        s.known_stack ++ [pv.var_on_stack]⟩,
      c.future_states⟩,
      ⟨om_insert (om_insert (om_swap_remove s.vars pv.var) pv.var_on_stack
          (VarState.TempVar pv.ty)) pv.var (VarState.Deferred info),
        s.known_stack ++ [pv.var_on_stack]⟩, ?_, rfl, rfl, ?_⟩
    · simp [push_values_aux, hst, hlook, hkind, hdup, store_temp, dup_stmt, ctx_with_vars]
    · exact om_lookup_insert_self _ _ _
  · intro hdup
    refine ⟨⟨c.local_variables,
      c.result ++ [simple_statement (LibfuncId.StoreTemp pv.ty) [pv.var] [pv.var_on_stack]],
      some ⟨om_insert (om_swap_remove s.vars pv.var) pv.var_on_stack (VarState.TempVar pv.ty),
        s.known_stack ++ [pv.var_on_stack]⟩,
      c.future_states⟩,
      ⟨om_insert (om_swap_remove s.vars pv.var) pv.var_on_stack (VarState.TempVar pv.ty),
        s.known_stack ++ [pv.var_on_stack]⟩, ?_, rfl, rfl, ?_⟩
    · simp [push_values_aux, hst, hlook, hkind, hdup, store_temp, ctx_with_vars]
    · intro hne
      rw [om_lookup_insert_ne _ _ _ _ hne]
      exact om_lookup_swap_remove_self s.vars pv.var hnodup

/-- C6 witness: both cases instantiated on a concrete context holding one
const-deferred variable. -/
theorem c6_witness :
    (om_lookup ([(4, VarState.Deferred ⟨DeferredVariableKind.Const, 2⟩)] :
        List (VarId × VarState)) 4 =
      some (VarState.Deferred ⟨DeferredVariableKind.Const, 2⟩)) ∧
    ((true : Bool) = true →
      ∃ c2 s2, push_values_aux
          ⟨[], [], some ⟨[(4, VarState.Deferred ⟨DeferredVariableKind.Const, 2⟩)], []⟩, []⟩
          (⟨4, 5, 2, true⟩ :: []) 0 0 =
          push_values_aux c2 [] (0 + 1) 0 ∧
        c2.result = [] ++
          [simple_statement (LibfuncId.Dup 2) [4] [4, 5],
           simple_statement (LibfuncId.StoreTemp 2) [5] [5]] ∧
        c2.state_opt = some s2 ∧
        om_lookup s2.vars 4 = some (VarState.Deferred ⟨DeferredVariableKind.Const, 2⟩)) :=
  ⟨by decide,
    (c6_push_const_deferred
      ⟨[], [], some ⟨[(4, VarState.Deferred ⟨DeferredVariableKind.Const, 2⟩)], []⟩, []⟩
      ⟨[(4, VarState.Deferred ⟨DeferredVariableKind.Const, 2⟩)], []⟩
      ⟨4, 5, 2, true⟩ [] 0 0 ⟨DeferredVariableKind.Const, 2⟩
      rfl (by decide) (by decide) rfl).1⟩

/-! State-effect lemmas: each per-variable operation of the pass keeps the
state reachable, keeps the keys distinct, and changes at most the entry of
the variable it operates on. -/

theorem touches_only_refl (c : Ctx) (k : VarId) : touches_only c c k := by
  intro sa ha hn
  exact ⟨sa, ha, hn, fun v _ => rfl⟩

theorem touches_only_trans {a b c : Ctx} {k : VarId}
    (h1 : touches_only a b k) (h2 : touches_only b c k) : touches_only a c k := by
  intro sa ha hn
  obtain ⟨sb, hb, hnb, hvb⟩ := h1 sa ha hn
  obtain ⟨sc, hc, hnc, hvc⟩ := h2 sb hb hnb
  exact ⟨sc, hc, hnc, fun v hv => (hvc v hv).trans (hvb v hv)⟩

theorem touches_only_swap {c : Ctx} {s : State} (k : VarId)
    (h : c.state_opt = some s) :
    touches_only c (ctx_with_vars c s (om_swap_remove s.vars k)) k := by
  intro sa ha hn
  rw [h] at ha
  injection ha with ha
  subst ha
  refine ⟨_, rfl, keys_nodup_swap_remove _ _ hn, ?_⟩
  intro v hv
  exact om_lookup_swap_remove_ne _ _ _ hn hv

theorem touches_only_swap_insert {c : Ctx} {s : State} (k : VarId) (x : VarState)
    (h : c.state_opt = some s) :
    touches_only c (ctx_with_vars c s (om_insert (om_swap_remove s.vars k) k x)) k := by
  intro sa ha hn
  rw [h] at ha
  injection ha with ha
  subst ha
  refine ⟨_, rfl, keys_nodup_insert _ _ _ (keys_nodup_swap_remove _ _ hn), ?_⟩
  intro v hv
  rw [om_lookup_insert_ne _ _ _ _ hv]
  exact om_lookup_swap_remove_ne _ _ _ hn hv

theorem store_local_touches {c c2 : Ctx} {k u : VarId} {ty : TypeId}
    (h : store_local c k u ty = some c2) : touches_only c c2 k := by
  intro sa ha hn
  unfold store_local at h
  rw [ha] at h
  injection h with h
  subst h
  refine ⟨_, rfl, keys_nodup_insert _ _ _ hn, ?_⟩
  intro v hv
  exact om_lookup_insert_ne _ _ _ _ hv

theorem store_temp_touches {c c2 : Ctx} {v w : VarId} {ty : TypeId}
    (h : store_temp c v w ty = some c2) : touches_only c c2 w := by
  intro sa ha hn
  unfold store_temp at h
  rw [ha] at h
  injection h with h
  subst h
  refine ⟨_, rfl, keys_nodup_insert _ _ _ hn, ?_⟩
  intro v2 hv
  exact om_lookup_insert_ne _ _ _ _ hv

theorem store_deferred_touches {c c2 : Ctx} {k : VarId} {ty : TypeId} {vs : VarState}
    (h : store_deferred c k ty = some (vs, c2)) : touches_only c c2 k := by
  unfold store_deferred store_deferred_ex at h
  split at h
  · split at h
    · exact absurd h (by simp)
    · rename_i heq
      injection h with h
      rw [Prod.mk.injEq] at h
      exact h.2 ▸ store_local_touches heq
  · split at h
    · exact absurd h (by simp)
    · rename_i heq
      injection h with h
      rw [Prod.mk.injEq] at h
      exact h.2 ▸ store_temp_touches heq

theorem store_temp_as_local_touches {c c2 : Ctx} {k : VarId} {b : Bool}
    (h : store_temp_as_local c k = some (b, c2)) : touches_only c c2 k := by
  unfold store_temp_as_local at h
  split at h
  · split at h
    · exact absurd h (by simp)
    · rename_i s heqS
      split at h
      · exact absurd h (by simp)
      · split at h
        · split at h
          · exact absurd h (by simp)
          · rename_i heq
            injection h with h
            rw [Prod.mk.injEq] at h
            exact h.2 ▸ touches_only_trans (touches_only_swap k heqS) (store_local_touches heq)
        · exact absurd h (by simp)
  · injection h with h
    rw [Prod.mk.injEq] at h
    exact h.2 ▸ touches_only_refl c k

theorem prepare_libfunc_argument_touches {c c2 : Ctx} {a : VarId}
    {f1 f2 f3 : Bool} {vs : VarState}
    (h : prepare_libfunc_argument c a f1 f2 f3 = some (vs, c2)) : touches_only c c2 a := by
  unfold prepare_libfunc_argument at h
  split at h
  · exact absurd h (by simp)
  · rename_i s heqS
    split at h
    · exact absurd h (by simp)
    · split at h
      · split at h
        · exact touches_only_trans (touches_only_swap a heqS) (store_deferred_touches h)
        · split at h
          · split at h
            · exact touches_only_trans (touches_only_swap a heqS) (store_deferred_touches h)
            · injection h with h
              rw [Prod.mk.injEq] at h
              exact h.2 ▸ touches_only_swap a heqS
          · split at h
            · exact touches_only_trans (touches_only_swap a heqS) (store_deferred_touches h)
            · injection h with h
              rw [Prod.mk.injEq] at h
              exact h.2 ▸ touches_only_swap a heqS
          · split at h
            · exact touches_only_trans (touches_only_swap a heqS) (store_deferred_touches h)
            · injection h with h
              rw [Prod.mk.injEq] at h
              exact h.2 ▸ touches_only_swap a heqS
      · split at h
        · exact absurd h (by simp)
        · rename_i heq
          injection h with h
          rw [Prod.mk.injEq] at h
          exact h.2 ▸ touches_only_trans (touches_only_swap_insert a _ heqS)
            (store_temp_as_local_touches heq)
        · rename_i heq
          injection h with h
          rw [Prod.mk.injEq] at h
          exact h.2 ▸ touches_only_trans (touches_only_swap_insert a _ heqS)
            (store_temp_as_local_touches heq)
      · injection h with h
        rw [Prod.mk.injEq] at h
        exact h.2 ▸ touches_only_swap a heqS

theorem prepare_libfunc_arguments_preserve :
    ∀ (args : List VarId) (psigs : List ParamSignature) (c c2 : Ctx)
      (states : List VarState) (s : State) (v : VarId),
      prepare_libfunc_arguments c args psigs = some (states, c2) →
      v ∉ args →
      c.state_opt = some s → keys_nodup s.vars →
      ∃ s2, c2.state_opt = some s2 ∧ keys_nodup s2.vars ∧
        om_lookup s2.vars v = om_lookup s.vars v := by
  intro args
  induction args with
  | nil =>
    intro psigs c c2 states s v h _ hs hn
    cases psigs with
    | nil =>
      unfold prepare_libfunc_arguments at h
      injection h with h
      rw [Prod.mk.injEq] at h
      exact h.2 ▸ ⟨s, hs, hn, rfl⟩
    | cons p ps => exact absurd h (by simp [prepare_libfunc_arguments])
  | cons a rest ih =>
    intro psigs c c2 states s v h hv hs hn
    cases psigs with
    | nil => exact absurd h (by simp [prepare_libfunc_arguments])
    | cons p ps =>
      simp only [List.mem_cons] at hv
      push_neg at hv
      unfold prepare_libfunc_arguments at h
      split at h
      · exact absurd h (by simp)
      · rename_i heq
        split at h
        · exact absurd h (by simp)
        · rename_i sA heqA
          split at h
          · exact absurd h (by simp)
          · rename_i heq2
            injection h with h
            rw [Prod.mk.injEq] at h
            obtain ⟨sB, hsB, hnB, hvB⟩ :=
              prepare_libfunc_argument_touches heq s hs hn
            rw [hsB] at heqA
            injection heqA with heqA
            subst heqA
            obtain ⟨sC, hsC, hnC, hvC⟩ := (touches_only_swap a hsB) sB hsB hnB
            obtain ⟨s2, hs2, hn2, hv2⟩ := ih ps _ _ _ sC v heq2 hv.2 hsC hnC
            refine ⟨s2, h.2 ▸ hs2, hn2, ?_⟩
            rw [hv2, hvC v hv.1, hvB v hv.1]

theorem synth_ext_mem {a b : Ctx} (h : synth_ext a b) {x : Statement}
    (hx : x ∈ a.result) : x ∈ b.result := by
  obtain ⟨t, e, _⟩ := h
  rw [e]
  exact List.mem_append.mpr (Or.inl hx)

/-- The two evaluation equations of prepare_libfunc_argument on a TempVar
argument: without a local slot the temporary is re-inserted and returned as
TempVar; with a local slot a store_local is emitted and LocalVar is
returned. -/
theorem prepare_tempvar_head_eq
    (c : Ctx) (s : State) (arg : VarId) (ty : TypeId) (f1 f2 f3 : Bool)
    (hst : c.state_opt = some s)
    (hlook : om_lookup s.vars arg = some (VarState.TempVar ty)) :
    (om_lookup c.local_variables arg = none →
      prepare_libfunc_argument c arg f1 f2 f3 =
        some (VarState.TempVar ty,
          ctx_with_vars c s (om_insert (om_swap_remove s.vars arg) arg
            (VarState.TempVar ty)))) ∧
    (∀ u, om_lookup c.local_variables arg = some u →
      prepare_libfunc_argument c arg f1 f2 f3 =
        some (VarState.LocalVar,
          ⟨c.local_variables,
           c.result ++ [simple_statement (LibfuncId.StoreLocal ty) [u, arg] [arg]],
           some ⟨om_insert (om_swap_remove
               (om_insert (om_swap_remove s.vars arg) arg (VarState.TempVar ty)) arg)
             arg VarState.LocalVar, s.known_stack⟩,
           c.future_states⟩)) := by
  constructor
  · intro h0
    simp [prepare_libfunc_argument, hst, hlook, store_temp_as_local, h0, ctx_with_vars]
  · intro u hu
    simp [prepare_libfunc_argument, hst, hlook, store_temp_as_local, hu,
      om_lookup_insert_self, store_local, ctx_with_vars]

/-- C5 counterexample: a TempVar argument not in local_variables is
consumed by prepare_libfunc_arguments: after argument preparation the
variables map is empty, so the claim that it is re-inserted and remains
live is false. -/
theorem c5_counterexample :
    prepare_libfunc_arguments ⟨[], [], some ⟨[(1, VarState.TempVar 0)], []⟩, []⟩
        [1] [⟨true, true, true⟩] =
      some ([VarState.TempVar 0], ⟨[], [], some ⟨[], []⟩, []⟩) ∧
    om_lookup ([] : List (VarId × VarState)) 1 = none := by
  decide

/-- C5 (amended): a TempVar argument is re-inserted during
prepare_libfunc_argument but then consumed by prepare_libfunc_arguments, so
after argument preparation it is absent from the variables map; its
returned argument state is TempVar when it is not in local_variables, and
LocalVar with a store_local emitted when it is. -/
theorem c5_tempvar_argument_amended
    (c : Ctx) (s : State) (arg : VarId) (ty : TypeId)
    (argsRest : List VarId) (p : ParamSignature) (ps : List ParamSignature)
    (states : List VarState) (c2 : Ctx)
    (hst : c.state_opt = some s)
    (hnodup : keys_nodup s.vars)
    (hlook : om_lookup s.vars arg = some (VarState.TempVar ty))
    (hnotin : arg ∉ argsRest)
    (hprep : prepare_libfunc_arguments c (arg :: argsRest) (p :: ps) = some (states, c2)) :
    (∃ s2, c2.state_opt = some s2 ∧ om_lookup s2.vars arg = none) ∧
    (om_lookup c.local_variables arg = none → states.head? = some (VarState.TempVar ty)) ∧
    (∀ u, om_lookup c.local_variables arg = some u →
      states.head? = some VarState.LocalVar ∧
      simple_statement (LibfuncId.StoreLocal ty) [u, arg] [arg] ∈ c2.result) := by
  match hlv : om_lookup c.local_variables arg with
  | none =>
    have heqhead := (prepare_tempvar_head_eq c s arg ty p.allow_deferred p.allow_add_const
      p.allow_const hst hlook).1 hlv
    unfold prepare_libfunc_arguments at hprep
    rw [heqhead] at hprep
    simp only [ctx_with_vars_state_opt] at hprep
    split at hprep
    · exact absurd hprep (by simp)
    · rename_i heqT
      injection hprep with hprep
      rw [Prod.mk.injEq] at hprep
      have hn1 : keys_nodup (om_insert (om_swap_remove s.vars arg) arg
          (VarState.TempVar ty)) :=
        keys_nodup_insert _ _ _ (keys_nodup_swap_remove _ _ hnodup)
      obtain ⟨s2, hs2, hn2, hv2⟩ := prepare_libfunc_arguments_preserve argsRest ps _ _ _
        ⟨om_swap_remove (om_insert (om_swap_remove s.vars arg) arg
          (VarState.TempVar ty)) arg, s.known_stack⟩ arg heqT hnotin rfl
        (keys_nodup_swap_remove _ _ hn1)
      refine ⟨⟨s2, hprep.2 ▸ hs2, ?_⟩, ?_, ?_⟩
      · rw [hv2]
        exact om_lookup_swap_remove_self _ _ hn1
      · intro _
        rw [← hprep.1]
        rfl
      · intro u hu
        exact Option.noConfusion hu
  | some u =>
    have heqhead := (prepare_tempvar_head_eq c s arg ty p.allow_deferred p.allow_add_const
      p.allow_const hst hlook).2 u hlv
    unfold prepare_libfunc_arguments at hprep
    rw [heqhead] at hprep
    simp only [ctx_mk_state_opt] at hprep
    split at hprep
    · exact absurd hprep (by simp)
    · rename_i heqT
      injection hprep with hprep
      rw [Prod.mk.injEq] at hprep
      have hn1 : keys_nodup (om_insert (om_swap_remove
          (om_insert (om_swap_remove s.vars arg) arg (VarState.TempVar ty)) arg)
          arg VarState.LocalVar) :=
        keys_nodup_insert _ _ _ (keys_nodup_swap_remove _ _
          (keys_nodup_insert _ _ _ (keys_nodup_swap_remove _ _ hnodup)))
      obtain ⟨s2, hs2, hn2, hv2⟩ := prepare_libfunc_arguments_preserve argsRest ps _ _ _
        ⟨om_swap_remove (om_insert (om_swap_remove
          (om_insert (om_swap_remove s.vars arg) arg (VarState.TempVar ty)) arg)
          arg VarState.LocalVar) arg, s.known_stack⟩ arg heqT hnotin rfl
        (keys_nodup_swap_remove _ _ hn1)
      refine ⟨⟨s2, hprep.2 ▸ hs2, ?_⟩, ?_, ?_⟩
      · rw [hv2]
        exact om_lookup_swap_remove_self _ _ hn1
      · intro h0
        exact Option.noConfusion h0
      · intro u2 hu2
        injection hu2 with hu2
        subst hu2
        constructor
        · rw [← hprep.1]
          rfl
        · refine hprep.2 ▸ synth_ext_mem (prepare_libfunc_arguments_synth_ext _ _ _ _ _ heqT) ?_
          show _ ∈ c.result ++ [simple_statement (LibfuncId.StoreLocal ty) [u, arg] [arg]]
          exact List.mem_append.mpr (Or.inr (by simp))

/-- C5 witness: the amended statement instantiated on a concrete context
with one non-local temporary argument. -/
theorem c5_witness :
    (om_lookup ([(1, VarState.TempVar 0)] : List (VarId × VarState)) 1 =
      some (VarState.TempVar 0)) ∧
    ((∃ s2, (⟨[], [], some ⟨[], []⟩, []⟩ : Ctx).state_opt = some s2 ∧
        om_lookup s2.vars 1 = none) ∧
      (om_lookup ([] : List (VarId × VarId)) 1 = none →
        ([VarState.TempVar 0] : List VarState).head? = some (VarState.TempVar 0)) ∧
      (∀ u, om_lookup ([] : List (VarId × VarId)) 1 = some u →
        ([VarState.TempVar 0] : List VarState).head? = some VarState.LocalVar ∧
        simple_statement (LibfuncId.StoreLocal 0) [u, 1] [1] ∈
          (⟨[], [], some ⟨[], []⟩, []⟩ : Ctx).result)) :=
  ⟨by decide,
    c5_tempvar_argument_amended ⟨[], [], some ⟨[(1, VarState.TempVar 0)], []⟩, []⟩
      ⟨[(1, VarState.TempVar 0)], []⟩ 1 0 [] ⟨true, true, true⟩ []
      [VarState.TempVar 0] ⟨[], [], some ⟨[], []⟩, []⟩
      rfl (by decide) (by decide) (by decide) (by decide)⟩

/-! Evaluation equations for the primitive store helpers. -/

theorem store_local_eq {c c2 : Ctx} {v u : VarId} {ty : TypeId} {s : State}
    (h : store_local c v u ty = some c2) (hs : c.state_opt = some s) :
    c2 = ⟨c.local_variables,
      c.result ++ [simple_statement (LibfuncId.StoreLocal ty) [u, v] [v]],
      some ⟨om_insert s.vars v VarState.LocalVar, s.known_stack⟩,
      c.future_states⟩ := by
  unfold store_local at h
  rw [hs] at h
  injection h with h
  rw [← h]

theorem store_temp_eq {c c2 : Ctx} {v w : VarId} {ty : TypeId} {s : State}
    (h : store_temp c v w ty = some c2) (hs : c.state_opt = some s) :
    c2 = ⟨c.local_variables,
      c.result ++ [simple_statement (LibfuncId.StoreTemp ty) [v] [w]],
      some ⟨om_insert s.vars w (VarState.TempVar ty), s.known_stack ++ [w]⟩,
      c.future_states⟩ := by
  unfold store_temp at h
  rw [hs] at h
  injection h with h
  rw [← h]

/-! The fold of store_variables_as_locals: per-variable effect. -/

theorem store_locals_fold_preserve :
    ∀ (T : List (VarId × VarId × TypeId)) (c c2 : Ctx) (v : VarId) (s : State),
      store_locals_fold c T = some c2 →
      (∀ e ∈ T, e.1 ≠ v) →
      c.state_opt = some s → keys_nodup s.vars →
      ∃ s2, c2.state_opt = some s2 ∧ keys_nodup s2.vars ∧
        om_lookup s2.vars v = om_lookup s.vars v := by
  intro T
  induction T with
  | nil =>
    intro c c2 v s h _ hs hn
    unfold store_locals_fold at h
    injection h with h
    exact h ▸ ⟨s, hs, hn, rfl⟩
  | cons e rest ih =>
    intro c c2 v s h hne hs hn
    obtain ⟨w, u, ty⟩ := e
    unfold store_locals_fold at h
    split at h
    · exact absurd h (by simp)
    · rename_i s0 heq0
      rw [hs] at heq0
      injection heq0 with heq0
      subst heq0
      split at h
      · exact absurd h (by simp)
      · split at h
        · exact absurd h (by simp)
        · rename_i heqSL
          have ht : touches_only c _ w :=
            touches_only_trans (touches_only_swap w hs) (store_local_touches heqSL)
          obtain ⟨sB, hsB, hnB, hvB⟩ := ht s hs hn
          obtain ⟨s2, hs2, hn2, hv2⟩ :=
            ih _ _ v sB h (fun e2 he2 => hne e2 (List.mem_cons.mpr (Or.inr he2))) hsB hnB
          refine ⟨s2, hs2, hn2, ?_⟩
          have hwv : w ≠ v := hne (w, u, ty) (List.mem_cons.mpr (Or.inl rfl))
          rw [hv2, hvB v (Ne.symm hwv)]

theorem store_locals_fold_hits :
    ∀ (T : List (VarId × VarId × TypeId)) (c c2 : Ctx) (v u : VarId) (ty : TypeId) (s : State),
      store_locals_fold c T = some c2 →
      (v, u, ty) ∈ T →
      (T.map Prod.fst).Nodup →
      c.state_opt = some s → keys_nodup s.vars →
      ∃ s2, c2.state_opt = some s2 ∧ om_lookup s2.vars v = some VarState.LocalVar ∧
        simple_statement (LibfuncId.StoreLocal ty) [u, v] [v] ∈ c2.result := by
  intro T
  induction T with
  | nil =>
    intro c c2 v u ty s h hmem
    exact absurd hmem (by simp)
  | cons e rest ih =>
    intro c c2 v u ty s h hmem hT hs hn
    obtain ⟨w, u1, ty1⟩ := e
    simp only [List.map_cons, List.nodup_cons] at hT
    rcases List.mem_cons.mp hmem with hhead | htail
    · obtain ⟨rfl, rfl, rfl⟩ : v = w ∧ u = u1 ∧ ty = ty1 := by
        rw [Prod.mk.injEq, Prod.mk.injEq] at hhead
        exact ⟨hhead.1, hhead.2.1, hhead.2.2⟩
      unfold store_locals_fold at h
      split at h
      · exact absurd h (by simp)
      · rename_i s0 heq0
        rw [hs] at heq0
        injection heq0 with heq0
        subst heq0
        split at h
        · exact absurd h (by simp)
        · split at h
          · exact absurd h (by simp)
          · rename_i heqSL
            have hcB := store_local_eq heqSL (ctx_with_vars_state_opt c s _)
            subst hcB
            have hn1 : keys_nodup (om_insert (om_swap_remove s.vars v) v VarState.LocalVar) :=
              keys_nodup_insert _ _ _ (keys_nodup_swap_remove _ _ hn)
            obtain ⟨s2, hs2, hn2, hv2⟩ := store_locals_fold_preserve rest _ _ v
              ⟨om_insert (om_swap_remove s.vars v) v VarState.LocalVar, s.known_stack⟩
              h (fun e2 he2 => fun h3 => hT.1 (h3 ▸ List.mem_map_of_mem Prod.fst he2)) rfl hn1
            refine ⟨s2, hs2, ?_, ?_⟩
            · rw [hv2]
              exact om_lookup_insert_self _ _ _
            · refine synth_ext_mem (store_locals_fold_synth_ext _ _ _ h) ?_
              show _ ∈ _ ++ [simple_statement (LibfuncId.StoreLocal ty) [u, v] [v]]
              exact List.mem_append.mpr (Or.inr (by simp))
    · have hwv : w ≠ v := by
        intro h2
        exact hT.1 (h2 ▸ List.mem_map_of_mem Prod.fst htail)
      unfold store_locals_fold at h
      split at h
      · exact absurd h (by simp)
      · rename_i s0 heq0
        rw [hs] at heq0
        injection heq0 with heq0
        subst heq0
        split at h
        · exact absurd h (by simp)
        · split at h
          · exact absurd h (by simp)
          · rename_i heqSL
            have ht : touches_only c _ w :=
              touches_only_trans (touches_only_swap w hs) (store_local_touches heqSL)
            obtain ⟨sB, hsB, hnB, hvB⟩ := ht s hs hn
            exact ih _ _ v u ty sB h htail hT.2 hsB hnB

/-- The keys of a filterMap that preserves first components form a sublist
of the original keys. -/
theorem keys_filterMap_sublist {α β γ : Type} (f : α × β → Option (α × γ))
    (hf : ∀ p q, f p = some q → q.1 = p.1) :
    ∀ (m : List (α × β)), ((m.filterMap f).map Prod.fst).Sublist (m.map Prod.fst) := by
  intro m
  induction m with
  | nil => simp
  | cons p rest ih =>
    match hp : f p with
    | none =>
      simp only [List.filterMap_cons, hp, List.map_cons]
      exact ih.cons p.1
    | some q =>
      simp only [List.filterMap_cons, hp, List.map_cons]
      rw [hf p q hp]
      exact ih.cons₂ p.1

/-- Per-variable effect of store_variables_as_locals: every variable with a
local slot that is Deferred or TempVar is stored to its slot via
store_local; every other variable keeps its state. -/
theorem store_variables_as_locals_unit
    (d d2 : Ctx) (t : State)
    (hs : d.state_opt = some t) (hn : keys_nodup t.vars)
    (hsv : store_variables_as_locals d = some d2) :
    ∀ v vs, om_lookup t.vars v = some vs →
      ∃ s2, d2.state_opt = some s2 ∧
        (match om_lookup d.local_variables v, vs with
         | some u, VarState.Deferred info =>
           om_lookup s2.vars v = some VarState.LocalVar ∧
           simple_statement (LibfuncId.StoreLocal info.ty) [u, v] [v] ∈ d2.result
         | some u, VarState.TempVar ty =>
           om_lookup s2.vars v = some VarState.LocalVar ∧
           simple_statement (LibfuncId.StoreLocal ty) [u, v] [v] ∈ d2.result
         | _, _ => om_lookup s2.vars v = some vs) := by
  intro v vs hlook
  unfold store_variables_as_locals at hsv
  rw [hs] at hsv
  replace hsv : store_locals_fold d (t.vars.filterMap (fun p =>
      match om_lookup d.local_variables p.1 with
      | some uninit_local_var_id =>
        match p.2 with
        | VarState.Deferred info => some (p.1, uninit_local_var_id, info.ty)
        | VarState.TempVar ty => some (p.1, uninit_local_var_id, ty)
        | VarState.LocalVar => none
      | none => none)) = some d2 := hsv
  have hmem : (v, vs) ∈ t.vars := (om_lookup_eq_some_iff _ _ _ hn).mp hlook
  have hf : ∀ (p : VarId × VarState) (q : VarId × VarId × TypeId),
      (match om_lookup d.local_variables p.1 with
       | some uninit_local_var_id =>
         match p.2 with
         | VarState.Deferred info => some (p.1, uninit_local_var_id, info.ty)
         | VarState.TempVar ty => some (p.1, uninit_local_var_id, ty)
         | VarState.LocalVar => none
       | none => none) = some q → q.1 = p.1 := by
    intro p q hq
    split at hq
    · split at hq
      · injection hq with hq
        rw [← hq]
      · injection hq with hq
        rw [← hq]
      · exact absurd hq (by simp)
    · exact absurd hq (by simp)
  have hTnodup := (keys_filterMap_sublist _ hf t.vars).nodup hn
  have hnone_case : (match om_lookup d.local_variables v with
       | some uninit_local_var_id =>
         match vs with
         | VarState.Deferred info => some (v, uninit_local_var_id, info.ty)
         | VarState.TempVar ty => some (v, uninit_local_var_id, ty)
         | VarState.LocalVar => none
       | none => none) = none →
      ∃ s2, d2.state_opt = some s2 ∧ om_lookup s2.vars v = some vs := by
    intro hfv
    have hno : ∀ e ∈ t.vars.filterMap (fun p =>
        match om_lookup d.local_variables p.1 with
        | some uninit_local_var_id =>
          match p.2 with
          | VarState.Deferred info => some (p.1, uninit_local_var_id, info.ty)
          | VarState.TempVar ty => some (p.1, uninit_local_var_id, ty)
          | VarState.LocalVar => none
        | none => none), e.1 ≠ v := by
      intro e he hev
      obtain ⟨p, hp, hpe⟩ := List.mem_filterMap.mp he
      have hpe2 : (match om_lookup d.local_variables p.1 with
         | some uninit_local_var_id =>
           match p.2 with
           | VarState.Deferred info => some (p.1, uninit_local_var_id, info.ty)
           | VarState.TempVar ty => some (p.1, uninit_local_var_id, ty)
           | VarState.LocalVar => none
         | none => none) = some e := hpe
      have hp1 : p.1 = v := (hf p e hpe2) ▸ hev
      have hp2 : p.2 = vs := by
        have h2 : (p.1, p.2) ∈ t.vars := hp
        rw [hp1] at h2
        have h3 := (om_lookup_eq_some_iff t.vars v p.2 hn).mpr h2
        rw [hlook] at h3
        injection h3 with h3
        exact h3.symm
      rw [← hp1, ← hp2] at hfv
      rw [hpe2] at hfv
      exact absurd hfv (by simp)
    obtain ⟨s2, hs2, _, hv2⟩ := store_locals_fold_preserve _ _ _ v t hsv hno hs hn
    exact ⟨s2, hs2, hv2.trans hlook⟩
  match hlv : om_lookup d.local_variables v with
  | none =>
    exact hnone_case (by simp [hlv])
  | some u =>
    match hvs : vs with
    | VarState.LocalVar =>
      exact hnone_case (by simp [hlv, hvs])
    | VarState.Deferred info =>
      obtain ⟨s2, hs2, hv2, hmem2⟩ := store_locals_fold_hits _ _ _ v u info.ty t hsv
        (List.mem_filterMap.mpr ⟨(v, VarState.Deferred info), hvs ▸ hmem, by simp [hlv]⟩)
        hTnodup hs hn
      exact ⟨s2, hs2, hv2, hmem2⟩
    | VarState.TempVar ty =>
      obtain ⟨s2, hs2, hv2, hmem2⟩ := store_locals_fold_hits _ _ _ v u ty t hsv
        (List.mem_filterMap.mpr ⟨(v, VarState.TempVar ty), hvs ▸ hmem, by simp [hlv]⟩)
        hTnodup hs hn
      exact ⟨s2, hs2, hv2, hmem2⟩

/-- Dispatch equations of handle_statement on an invocation with a single
fallthrough branch: the spill of locals runs exactly when the declared
ap-change is Unknown, before output registration. -/
theorem handle_single_fallthrough_eq
    (c c1 : Ctx) (inv : GenInvocation) (g : LibfuncId → LibfuncInfo)
    (rs : List VarId) (bsig : BranchSignature) (arg_states : List VarState)
    (hbr : inv.branches = [⟨BranchTarget.Fallthrough, rs⟩])
    (hprep : prepare_libfunc_arguments c inv.args
      (g inv.libfunc_id).signature.param_signatures = some (arg_states, c1))
    (hsig0 : (g inv.libfunc_id).signature.branch_signatures[0]? = some bsig) :
    (bsig.ap_change = SierraApChange.Unknown →
      handle_statement c (Statement.Invocation inv) g =
        (store_variables_as_locals c1).bind fun cmid =>
          (ctx_register_outputs cmid rs bsig arg_states).map
            (append_stmt (Statement.Invocation inv))) ∧
    (bsig.ap_change ≠ SierraApChange.Unknown →
      handle_statement c (Statement.Invocation inv) g =
        (ctx_register_outputs c1 rs bsig arg_states).map
          (append_stmt (Statement.Invocation inv))) := by
  constructor
  · intro hap
    show handle_invocation c inv g = _
    simp only [handle_invocation, hprep, hbr, hsig0, hap]
    cases hsv : store_variables_as_locals c1 with
    | none => simp [hsv]
    | some cmid =>
      cases hreg : ctx_register_outputs cmid rs bsig arg_states with
      | none => simp [hreg]
      | some cfin => simp [hreg]
  · intro hap
    show handle_invocation c inv g = _
    match hap2 : bsig.ap_change with
    | SierraApChange.Unknown => exact absurd hap2 hap
    | SierraApChange.Known dl =>
      simp only [handle_invocation, hprep, hbr, hsig0, hap2]
      cases hreg : ctx_register_outputs c1 rs bsig arg_states with
      | none => simp [hreg]
      | some cfin => simp [hreg]
    | SierraApChange.BranchAlign =>
      simp only [handle_invocation, hprep, hbr, hsig0, hap2]
      cases hreg : ctx_register_outputs c1 rs bsig arg_states with
      | none => simp [hreg]
      | some cfin => simp [hreg]

/-- C3: for an invocation with exactly one branch targeting fallthrough,
the pre-spill of local-marked variables runs exactly when the declared
ap-change is Unknown, before the branch outputs are registered; and that
spill stores every variable in the state that has a local slot and is
Deferred or TempVar to its slot via store_local, leaving LocalVar entries
and unmarked variables alone. -/
theorem c3_unknown_ap_spills_locals :
    (∀ (c c1 : Ctx) (inv : GenInvocation) (g : LibfuncId → LibfuncInfo)
        (rs : List VarId) (bsig : BranchSignature) (arg_states : List VarState),
      inv.branches = [⟨BranchTarget.Fallthrough, rs⟩] →
      prepare_libfunc_arguments c inv.args
          (g inv.libfunc_id).signature.param_signatures = some (arg_states, c1) →
      (g inv.libfunc_id).signature.branch_signatures[0]? = some bsig →
      ((bsig.ap_change = SierraApChange.Unknown →
        handle_statement c (Statement.Invocation inv) g =
          (store_variables_as_locals c1).bind fun cmid =>
            (ctx_register_outputs cmid rs bsig arg_states).map
              (append_stmt (Statement.Invocation inv))) ∧
       (bsig.ap_change ≠ SierraApChange.Unknown →
        handle_statement c (Statement.Invocation inv) g =
          (ctx_register_outputs c1 rs bsig arg_states).map
            (append_stmt (Statement.Invocation inv))))) ∧
    (∀ (d d2 : Ctx) (t : State),
      d.state_opt = some t → keys_nodup t.vars →
      store_variables_as_locals d = some d2 →
      ∀ v vs, om_lookup t.vars v = some vs →
        ∃ s2, d2.state_opt = some s2 ∧
          (match om_lookup d.local_variables v, vs with
           | some u, VarState.Deferred info =>
             om_lookup s2.vars v = some VarState.LocalVar ∧
             simple_statement (LibfuncId.StoreLocal info.ty) [u, v] [v] ∈ d2.result
           | some u, VarState.TempVar ty =>
             om_lookup s2.vars v = some VarState.LocalVar ∧
             simple_statement (LibfuncId.StoreLocal ty) [u, v] [v] ∈ d2.result
           | _, _ => om_lookup s2.vars v = some vs)) :=
  ⟨fun c c1 inv g rs bsig arg_states hbr hprep hsig0 =>
    handle_single_fallthrough_eq c c1 inv g rs bsig arg_states hbr hprep hsig0,
   fun d d2 t hs hn hsv => store_variables_as_locals_unit d d2 t hs hn hsv⟩

/-- C3 witness: the spill instantiated on a concrete context with one
local-marked temporary. -/
theorem c3_witness :
    store_variables_as_locals ⟨[(3, 8)], [], some ⟨[(3, VarState.TempVar 1)], []⟩, []⟩ =
      some ⟨[(3, 8)], [simple_statement (LibfuncId.StoreLocal 1) [8, 3] [3]],
        some ⟨[(3, VarState.LocalVar)], []⟩, []⟩ ∧
    (∃ s2, (⟨[(3, 8)], [simple_statement (LibfuncId.StoreLocal 1) [8, 3] [3]],
        some ⟨[(3, VarState.LocalVar)], []⟩, []⟩ : Ctx).state_opt = some s2 ∧
      (match om_lookup ([(3, 8)] : List (VarId × VarId)) 3, VarState.TempVar 1 with
       | some u, VarState.Deferred info =>
         om_lookup s2.vars 3 = some VarState.LocalVar ∧
         simple_statement (LibfuncId.StoreLocal info.ty) [u, 3] [3] ∈
           (⟨[(3, 8)], [simple_statement (LibfuncId.StoreLocal 1) [8, 3] [3]],
             some ⟨[(3, VarState.LocalVar)], []⟩, []⟩ : Ctx).result
       | some u, VarState.TempVar ty =>
         om_lookup s2.vars 3 = some VarState.LocalVar ∧
         simple_statement (LibfuncId.StoreLocal ty) [u, 3] [3] ∈
           (⟨[(3, 8)], [simple_statement (LibfuncId.StoreLocal 1) [8, 3] [3]],
             some ⟨[(3, VarState.LocalVar)], []⟩, []⟩ : Ctx).result
       | _, _ => om_lookup s2.vars 3 = some (VarState.TempVar 1))) :=
  ⟨by decide,
    c3_unknown_ap_spills_locals.2
      ⟨[(3, 8)], [], some ⟨[(3, VarState.TempVar 1)], []⟩, []⟩
      ⟨[(3, 8)], [simple_statement (LibfuncId.StoreLocal 1) [8, 3] [3]],
        some ⟨[(3, VarState.LocalVar)], []⟩, []⟩
      ⟨[(3, VarState.TempVar 1)], []⟩ rfl (by decide) (by decide)
      3 (VarState.TempVar 1) (by decide)⟩

/-! The local-variables map is never modified by the per-variable store
helpers. -/

theorem store_local_keeps_lv {c c2 : Ctx} {v u : VarId} {ty : TypeId}
    (h : store_local c v u ty = some c2) : c2.local_variables = c.local_variables := by
  unfold store_local at h
  split at h
  · exact absurd h (by simp)
  · injection h with h
    rw [← h]

theorem store_temp_keeps_lv {c c2 : Ctx} {v w : VarId} {ty : TypeId}
    (h : store_temp c v w ty = some c2) : c2.local_variables = c.local_variables := by
  unfold store_temp at h
  split at h
  · exact absurd h (by simp)
  · injection h with h
    rw [← h]

theorem store_deferred_keeps_lv {c c2 : Ctx} {v : VarId} {ty : TypeId} {vs : VarState}
    (h : store_deferred c v ty = some (vs, c2)) : c2.local_variables = c.local_variables := by
  unfold store_deferred store_deferred_ex at h
  split at h
  · split at h
    · exact absurd h (by simp)
    · rename_i heq
      injection h with h
      rw [Prod.mk.injEq] at h
      exact h.2 ▸ store_local_keeps_lv heq
  · split at h
    · exact absurd h (by simp)
    · rename_i heq
      injection h with h
      rw [Prod.mk.injEq] at h
      exact h.2 ▸ store_temp_keeps_lv heq

theorem store_temp_as_local_keeps_lv {c c2 : Ctx} {v : VarId} {b : Bool}
    (h : store_temp_as_local c v = some (b, c2)) : c2.local_variables = c.local_variables := by
  unfold store_temp_as_local at h
  split at h
  · split at h
    · exact absurd h (by simp)
    · split at h
      · exact absurd h (by simp)
      · split at h
        · split at h
          · exact absurd h (by simp)
          · rename_i heq
            injection h with h
            rw [Prod.mk.injEq] at h
            exact h.2 ▸ (store_local_keeps_lv heq).trans
              (ctx_with_vars_local_variables _ _ _)
        · exact absurd h (by simp)
  · injection h with h
    rw [Prod.mk.injEq] at h
    rw [← h.2]

/-! Evaluation equations for store_temp_as_local and store_deferred. -/

theorem store_temp_as_local_eq_local {c : Ctx} {s : State} {v u : VarId} {ty : TypeId}
    (hs : c.state_opt = some s)
    (hu : om_lookup c.local_variables v = some u)
    (hcur : om_lookup s.vars v = some (VarState.TempVar ty)) :
    store_temp_as_local c v = some (true,
      ⟨c.local_variables,
       c.result ++ [simple_statement (LibfuncId.StoreLocal ty) [u, v] [v]],
       some ⟨om_insert (om_swap_remove s.vars v) v VarState.LocalVar, s.known_stack⟩,
       c.future_states⟩) := by
  simp [store_temp_as_local, hs, hu, hcur, store_local, ctx_with_vars]

theorem store_temp_as_local_eq_nonlocal {c : Ctx} {v : VarId}
    (hu : om_lookup c.local_variables v = none) :
    store_temp_as_local c v = some (false, c) := by
  simp [store_temp_as_local, hu]

theorem store_deferred_eq_local {c : Ctx} {s : State} {v u : VarId} {ty : TypeId}
    (hs : c.state_opt = some s)
    (hu : om_lookup c.local_variables v = some u) :
    store_deferred c v ty = some (VarState.LocalVar,
      ⟨c.local_variables,
       c.result ++ [simple_statement (LibfuncId.StoreLocal ty) [u, v] [v]],
       some ⟨om_insert s.vars v VarState.LocalVar, s.known_stack⟩,
       c.future_states⟩) := by
  simp [store_deferred, store_deferred_ex, hs, hu, store_local]

theorem store_deferred_eq_nonlocal {c : Ctx} {s : State} {v : VarId} {ty : TypeId}
    (hs : c.state_opt = some s)
    (hu : om_lookup c.local_variables v = none) :
    store_deferred c v ty = some (VarState.TempVar ty,
      ⟨c.local_variables,
       c.result ++ [simple_statement (LibfuncId.StoreTemp ty) [v] [v]],
       some ⟨om_insert s.vars v (VarState.TempVar ty), s.known_stack ++ [v]⟩,
       c.future_states⟩) := by
  simp [store_deferred, store_deferred_ex, hs, hu, store_temp]

/-! The fold of store_all_possibly_lost_variables: per-variable effect. -/

theorem store_all_fold_preserve :
    ∀ (T : List (VarId × VarState)) (c c2 : Ctx) (v : VarId) (s : State),
      store_all_fold c T = some c2 →
      (∀ e ∈ T, e.1 ≠ v) →
      c.state_opt = some s → keys_nodup s.vars →
      ∃ s2, c2.state_opt = some s2 ∧ keys_nodup s2.vars ∧
        om_lookup s2.vars v = om_lookup s.vars v := by
  intro T
  induction T with
  | nil =>
    intro c c2 v s h _ hs hn
    unfold store_all_fold at h
    injection h with h
    exact h ▸ ⟨s, hs, hn, rfl⟩
  | cons e rest ih =>
    intro c c2 v s h hne hs hn
    obtain ⟨w, ws⟩ := e
    have hwv : w ≠ v := hne (w, ws) (List.mem_cons.mpr (Or.inl rfl))
    have hne2 : ∀ e2 ∈ rest, e2.1 ≠ v := fun e2 he2 => hne e2 (List.mem_cons.mpr (Or.inr he2))
    unfold store_all_fold at h
    split at h
    · split at h
      · exact absurd h (by simp)
      · rename_i heq
        obtain ⟨sB, hsB, hnB, hvB⟩ := store_temp_as_local_touches heq s hs hn
        obtain ⟨s2, hs2, hn2, hv2⟩ := ih _ _ v sB h hne2 hsB hnB
        exact ⟨s2, hs2, hn2, by rw [hv2, hvB v (Ne.symm hwv)]⟩
    · split at h
      · split at h
        · exact absurd h (by simp)
        · rename_i heqS
          rw [hs] at heqS
          injection heqS with heqS
          subst heqS
          split at h
          · exact absurd h (by simp)
          · rename_i heqD
            have ht : touches_only c _ w :=
              touches_only_trans (touches_only_swap w hs) (store_deferred_touches heqD)
            obtain ⟨sB, hsB, hnB, hvB⟩ := ht s hs hn
            obtain ⟨s2, hs2, hn2, hv2⟩ := ih _ _ v sB h hne2 hsB hnB
            exact ⟨s2, hs2, hn2, by rw [hv2, hvB v (Ne.symm hwv)]⟩
      · obtain ⟨s2, hs2, hn2, hv2⟩ := ih _ _ v s h hne2 hs hn
        exact ⟨s2, hs2, hn2, hv2⟩
    · obtain ⟨s2, hs2, hn2, hv2⟩ := ih _ _ v s h hne2 hs hn
      exact ⟨s2, hs2, hn2, hv2⟩

/-- Per-variable effect of a hit inside the fold of
store_all_possibly_lost_variables: a local-marked temporary is spilled to
its slot, a non-Const deferred variable is removed and stored (to its slot
when marked local, to a temporary otherwise), everything else is kept. -/
theorem store_all_fold_hits :
    ∀ (T : List (VarId × VarState)) (c c2 : Ctx) (v : VarId) (vs : VarState) (s : State),
      store_all_fold c T = some c2 →
      (v, vs) ∈ T →
      (T.map Prod.fst).Nodup →
      c.state_opt = some s → keys_nodup s.vars →
      om_lookup s.vars v = some vs →
      ∃ s2, c2.state_opt = some s2 ∧
        (match om_lookup c.local_variables v, vs with
         | some u, VarState.TempVar ty =>
           om_lookup s2.vars v = some VarState.LocalVar ∧
           simple_statement (LibfuncId.StoreLocal ty) [u, v] [v] ∈ c2.result
         | none, VarState.TempVar ty => om_lookup s2.vars v = some (VarState.TempVar ty)
         | some u, VarState.Deferred info =>
           if info.kind = DeferredVariableKind.Const then
             om_lookup s2.vars v = some (VarState.Deferred info)
           else
             om_lookup s2.vars v = some VarState.LocalVar ∧
             simple_statement (LibfuncId.StoreLocal info.ty) [u, v] [v] ∈ c2.result
         | none, VarState.Deferred info =>
           if info.kind = DeferredVariableKind.Const then
             om_lookup s2.vars v = some (VarState.Deferred info)
           else
             om_lookup s2.vars v = some (VarState.TempVar info.ty) ∧
             simple_statement (LibfuncId.StoreTemp info.ty) [v] [v] ∈ c2.result
         | _, VarState.LocalVar => om_lookup s2.vars v = some VarState.LocalVar) := by
  intro T
  induction T with
  | nil =>
    intro c c2 v vs s h hmem
    exact absurd hmem (by simp)
  | cons e rest ih =>
    intro c c2 v vs s h hmem hT hs hn hcur
    obtain ⟨w, ws⟩ := e
    simp only [List.map_cons, List.nodup_cons] at hT
    rcases List.mem_cons.mp hmem with hhead | htail
    · obtain ⟨rfl, rfl⟩ : v = w ∧ vs = ws := by
        rw [Prod.mk.injEq] at hhead
        exact ⟨hhead.1, hhead.2⟩
      have hrest : ∀ e2 ∈ rest, e2.1 ≠ v :=
        fun e2 he2 h3 => hT.1 (h3 ▸ List.mem_map_of_mem Prod.fst he2)
      unfold store_all_fold at h
      cases vs with
      | TempVar ty =>
        match hu : om_lookup c.local_variables v with
        | some u =>
          rw [store_temp_as_local_eq_local hs hu hcur] at h
          replace h : store_all_fold ⟨c.local_variables,
              c.result ++ [simple_statement (LibfuncId.StoreLocal ty) [u, v] [v]],
              some ⟨om_insert (om_swap_remove s.vars v) v VarState.LocalVar, s.known_stack⟩,
              c.future_states⟩ rest = some c2 := h
          obtain ⟨s2, hs2, hn2, hv2⟩ := store_all_fold_preserve rest _ c2 v
            ⟨om_insert (om_swap_remove s.vars v) v VarState.LocalVar, s.known_stack⟩ h hrest rfl
            (keys_nodup_insert _ _ _ (keys_nodup_swap_remove _ _ hn))
          refine ⟨s2, hs2, ?_, ?_⟩
          · rw [hv2]
            exact om_lookup_insert_self _ _ _
          · refine synth_ext_mem (store_all_fold_synth_ext _ _ _ h) ?_
            show _ ∈ _ ++ [simple_statement (LibfuncId.StoreLocal ty) [u, v] [v]]
            exact List.mem_append.mpr (Or.inr (by simp))
        | none =>
          rw [store_temp_as_local_eq_nonlocal hu] at h
          replace h : store_all_fold c rest = some c2 := h
          obtain ⟨s2, hs2, hn2, hv2⟩ := store_all_fold_preserve rest c c2 v s h hrest hs hn
          exact ⟨s2, hs2, hv2.trans hcur⟩
      | Deferred info =>
        obtain ⟨kind, dty⟩ := info
        cases kind with
        | Const =>
          replace h : store_all_fold c rest = some c2 := h
          obtain ⟨s2, hs2, hn2, hv2⟩ := store_all_fold_preserve rest c c2 v s h hrest hs hn
          match hu : om_lookup c.local_variables v with
          | some u => exact ⟨s2, hs2, hv2.trans hcur⟩
          | none => exact ⟨s2, hs2, hv2.trans hcur⟩
        | AddConst =>
          replace h : (match c.state_opt with
              | none => none
              | some s =>
                match store_deferred (ctx_with_vars c s (om_swap_remove s.vars v)) v dty with
                | none => none
                | some (_, c) => store_all_fold c rest) = some c2 := h
          rw [hs] at h
          replace h : (match store_deferred (ctx_with_vars c s (om_swap_remove s.vars v)) v dty with
              | none => none
              | some (_, c) => store_all_fold c rest) = some c2 := h
          match hu : om_lookup c.local_variables v with
          | some u =>
            rw [store_deferred_eq_local
              (show (ctx_with_vars c s (om_swap_remove s.vars v)).state_opt =
                some ⟨om_swap_remove s.vars v, s.known_stack⟩ from rfl) hu] at h
            replace h : store_all_fold ⟨c.local_variables,
                c.result ++ [simple_statement (LibfuncId.StoreLocal dty) [u, v] [v]],
                some ⟨om_insert (om_swap_remove s.vars v) v VarState.LocalVar, s.known_stack⟩,
                c.future_states⟩ rest = some c2 := h
            obtain ⟨s2, hs2, hn2, hv2⟩ := store_all_fold_preserve rest _ c2 v
              ⟨om_insert (om_swap_remove s.vars v) v VarState.LocalVar, s.known_stack⟩ h hrest rfl
              (keys_nodup_insert _ _ _ (keys_nodup_swap_remove _ _ hn))
            refine ⟨s2, hs2, ?_, ?_⟩
            · rw [hv2]
              exact om_lookup_insert_self _ _ _
            · refine synth_ext_mem (store_all_fold_synth_ext _ _ _ h) ?_
              show _ ∈ _ ++ [simple_statement (LibfuncId.StoreLocal dty) [u, v] [v]]
              exact List.mem_append.mpr (Or.inr (by simp))
          | none =>
            rw [store_deferred_eq_nonlocal
              (show (ctx_with_vars c s (om_swap_remove s.vars v)).state_opt =
                some ⟨om_swap_remove s.vars v, s.known_stack⟩ from rfl) hu] at h
            replace h : store_all_fold ⟨c.local_variables,
                c.result ++ [simple_statement (LibfuncId.StoreTemp dty) [v] [v]],
                some ⟨om_insert (om_swap_remove s.vars v) v (VarState.TempVar dty),
                  s.known_stack ++ [v]⟩,
                c.future_states⟩ rest = some c2 := h
            obtain ⟨s2, hs2, hn2, hv2⟩ := store_all_fold_preserve rest _ c2 v
              ⟨om_insert (om_swap_remove s.vars v) v (VarState.TempVar dty),
                s.known_stack ++ [v]⟩ h hrest rfl
              (keys_nodup_insert _ _ _ (keys_nodup_swap_remove _ _ hn))
            refine ⟨s2, hs2, ?_, ?_⟩
            · rw [hv2]
              exact om_lookup_insert_self _ _ _
            · refine synth_ext_mem (store_all_fold_synth_ext _ _ _ h) ?_
              show _ ∈ _ ++ [simple_statement (LibfuncId.StoreTemp dty) [v] [v]]
              exact List.mem_append.mpr (Or.inr (by simp))
        | Generic =>
          replace h : (match c.state_opt with
              | none => none
              | some s =>
                match store_deferred (ctx_with_vars c s (om_swap_remove s.vars v)) v dty with
                | none => none
                | some (_, c) => store_all_fold c rest) = some c2 := h
          rw [hs] at h
          replace h : (match store_deferred (ctx_with_vars c s (om_swap_remove s.vars v)) v dty with
              | none => none
              | some (_, c) => store_all_fold c rest) = some c2 := h
          match hu : om_lookup c.local_variables v with
          | some u =>
            rw [store_deferred_eq_local
              (show (ctx_with_vars c s (om_swap_remove s.vars v)).state_opt =
                some ⟨om_swap_remove s.vars v, s.known_stack⟩ from rfl) hu] at h
            replace h : store_all_fold ⟨c.local_variables,
                c.result ++ [simple_statement (LibfuncId.StoreLocal dty) [u, v] [v]],
                some ⟨om_insert (om_swap_remove s.vars v) v VarState.LocalVar, s.known_stack⟩,
                c.future_states⟩ rest = some c2 := h
            obtain ⟨s2, hs2, hn2, hv2⟩ := store_all_fold_preserve rest _ c2 v
              ⟨om_insert (om_swap_remove s.vars v) v VarState.LocalVar, s.known_stack⟩ h hrest rfl
              (keys_nodup_insert _ _ _ (keys_nodup_swap_remove _ _ hn))
            refine ⟨s2, hs2, ?_, ?_⟩
            · rw [hv2]
              exact om_lookup_insert_self _ _ _
            · refine synth_ext_mem (store_all_fold_synth_ext _ _ _ h) ?_
              show _ ∈ _ ++ [simple_statement (LibfuncId.StoreLocal dty) [u, v] [v]]
              exact List.mem_append.mpr (Or.inr (by simp))
          | none =>
            rw [store_deferred_eq_nonlocal
              (show (ctx_with_vars c s (om_swap_remove s.vars v)).state_opt =
                some ⟨om_swap_remove s.vars v, s.known_stack⟩ from rfl) hu] at h
            replace h : store_all_fold ⟨c.local_variables,
                c.result ++ [simple_statement (LibfuncId.StoreTemp dty) [v] [v]],
                some ⟨om_insert (om_swap_remove s.vars v) v (VarState.TempVar dty),
                  s.known_stack ++ [v]⟩,
                c.future_states⟩ rest = some c2 := h
            obtain ⟨s2, hs2, hn2, hv2⟩ := store_all_fold_preserve rest _ c2 v
              ⟨om_insert (om_swap_remove s.vars v) v (VarState.TempVar dty),
                s.known_stack ++ [v]⟩ h hrest rfl
              (keys_nodup_insert _ _ _ (keys_nodup_swap_remove _ _ hn))
            refine ⟨s2, hs2, ?_, ?_⟩
            · rw [hv2]
              exact om_lookup_insert_self _ _ _
            · refine synth_ext_mem (store_all_fold_synth_ext _ _ _ h) ?_
              show _ ∈ _ ++ [simple_statement (LibfuncId.StoreTemp dty) [v] [v]]
              exact List.mem_append.mpr (Or.inr (by simp))
      | LocalVar =>
        replace h : store_all_fold c rest = some c2 := h
        obtain ⟨s2, hs2, hn2, hv2⟩ := store_all_fold_preserve rest c c2 v s h hrest hs hn
        match hu : om_lookup c.local_variables v with
        | some u => exact ⟨s2, hs2, hv2.trans hcur⟩
        | none => exact ⟨s2, hs2, hv2.trans hcur⟩
    · have hwv : w ≠ v := fun h2 => hT.1 (h2 ▸ List.mem_map_of_mem Prod.fst htail)
      unfold store_all_fold at h
      cases ws with
      | TempVar ty =>
        replace h : (match store_temp_as_local c w with
            | none => none
            | some (_, c) => store_all_fold c rest) = some c2 := h
        split at h
        · exact absurd h (by simp)
        · rename_i x cB heq
          obtain ⟨sB, hsB, hnB, hvB⟩ := store_temp_as_local_touches heq s hs hn
          have hres := ih cB c2 v vs sB h htail hT.2 hsB hnB ((hvB v (Ne.symm hwv)).trans hcur)
          rw [store_temp_as_local_keeps_lv heq] at hres
          exact hres
      | Deferred info =>
        replace h : (if info.kind ≠ DeferredVariableKind.Const then
            (match c.state_opt with
             | none => none
             | some s =>
               match store_deferred (ctx_with_vars c s (om_swap_remove s.vars w)) w info.ty with
               | none => none
               | some (_, c) => store_all_fold c rest)
          else store_all_fold c rest) = some c2 := h
        split at h
        · split at h
          · exact absurd h (by simp)
          · rename_i heqS
            rw [hs] at heqS
            injection heqS with heqS
            subst heqS
            split at h
            · exact absurd h (by simp)
            · rename_i x cB heq
              have ht2 : touches_only c cB w :=
                touches_only_trans (touches_only_swap w hs) (store_deferred_touches heq)
              obtain ⟨sB, hsB, hnB, hvB⟩ := ht2 s hs hn
              have hres := ih cB c2 v vs sB h htail hT.2 hsB hnB
                ((hvB v (Ne.symm hwv)).trans hcur)
              rw [(store_deferred_keeps_lv heq).trans
                (ctx_with_vars_local_variables _ _ _)] at hres
              exact hres
        · exact ih c c2 v vs s h htail hT.2 hs hn hcur
      | LocalVar =>
        replace h : store_all_fold c rest = some c2 := h
        exact ih c c2 v vs s h htail hT.2 hs hn hcur

/-- Per-variable effect of store_all_possibly_lost_variables over the whole
variables map. -/
theorem store_all_possibly_lost_variables_unit
    (d d2 : Ctx) (t : State)
    (hs : d.state_opt = some t) (hn : keys_nodup t.vars)
    (hsv : store_all_possibly_lost_variables d = some d2) :
    ∀ v vs, om_lookup t.vars v = some vs →
      ∃ s2, d2.state_opt = some s2 ∧
        (match om_lookup d.local_variables v, vs with
         | some u, VarState.TempVar ty =>
           om_lookup s2.vars v = some VarState.LocalVar ∧
           simple_statement (LibfuncId.StoreLocal ty) [u, v] [v] ∈ d2.result
         | none, VarState.TempVar ty => om_lookup s2.vars v = some (VarState.TempVar ty)
         | some u, VarState.Deferred info =>
           if info.kind = DeferredVariableKind.Const then
             om_lookup s2.vars v = some (VarState.Deferred info)
           else
             om_lookup s2.vars v = some VarState.LocalVar ∧
             simple_statement (LibfuncId.StoreLocal info.ty) [u, v] [v] ∈ d2.result
         | none, VarState.Deferred info =>
           if info.kind = DeferredVariableKind.Const then
             om_lookup s2.vars v = some (VarState.Deferred info)
           else
             om_lookup s2.vars v = some (VarState.TempVar info.ty) ∧
             simple_statement (LibfuncId.StoreTemp info.ty) [v] [v] ∈ d2.result
         | _, VarState.LocalVar => om_lookup s2.vars v = some VarState.LocalVar) := by
  intro v vs hlook
  unfold store_all_possibly_lost_variables at hsv
  rw [hs] at hsv
  replace hsv : store_all_fold d t.vars = some d2 := hsv
  have hmem : (v, vs) ∈ t.vars := (om_lookup_eq_some_iff _ _ _ hn).mp hlook
  exact store_all_fold_hits t.vars d d2 v vs t hsv hmem hn hs hn hlook

/-- Dispatch equations of handle_statement around
store_all_possibly_lost_variables: it runs exactly when the invocation has
more than one branch; single-branch invocations (fallthrough or jump) never
run it. -/
theorem handle_branching_eq
    (c c1 : Ctx) (inv : GenInvocation) (g : LibfuncId → LibfuncInfo)
    (arg_states : List VarState)
    (hprep : prepare_libfunc_arguments c inv.args
      (g inv.libfunc_id).signature.param_signatures = some (arg_states, c1)) :
    (1 < inv.branches.length →
      handle_statement c (Statement.Invocation inv) g =
        (store_all_possibly_lost_variables c1).bind fun cmid =>
          (process_branches cmid arg_states inv.branches
              (g inv.libfunc_id).signature.branch_signatures none).map fun p =>
            append_stmt (Statement.Invocation inv) { p.1 with state_opt := p.2 }) ∧
    ((∀ rs, inv.branches ≠ [⟨BranchTarget.Fallthrough, rs⟩]) → ¬ 1 < inv.branches.length →
      handle_statement c (Statement.Invocation inv) g =
        (process_branches c1 arg_states inv.branches
            (g inv.libfunc_id).signature.branch_signatures none).map fun p =>
          append_stmt (Statement.Invocation inv) { p.1 with state_opt := p.2 }) ∧
    (∀ rs bsig, inv.branches = [⟨BranchTarget.Fallthrough, rs⟩] →
      (g inv.libfunc_id).signature.branch_signatures[0]? = some bsig →
      handle_statement c (Statement.Invocation inv) g =
        (match bsig.ap_change with
         | SierraApChange.Unknown => store_variables_as_locals c1
         | _ => some c1).bind fun cmid =>
          (ctx_register_outputs cmid rs bsig arg_states).map
            (append_stmt (Statement.Invocation inv))) := by
  refine ⟨?_, ?_, ?_⟩
  · intro hlen
    show handle_invocation c inv g = _
    match hbr : inv.branches with
    | [] =>
      rw [hbr] at hlen
      exact absurd hlen (by simp)
    | [b] =>
      rw [hbr] at hlen
      exact absurd hlen (by simp)
    | b :: b2 :: rest =>
      simp only [handle_invocation, hprep, hbr]
      rw [if_pos (by simp only [List.length_cons]; omega)]
      cases hsv : store_all_possibly_lost_variables c1 with
      | none => simp [hsv]
      | some cmid =>
        cases hpb : process_branches cmid arg_states (b :: b2 :: rest)
            (g inv.libfunc_id).signature.branch_signatures none with
        | none => simp [hsv, hpb]
        | some p =>
          obtain ⟨cf, fs⟩ := p
          simp [hsv, hpb]
  · intro hne hlen
    show handle_invocation c inv g = _
    match hbr : inv.branches with
    | [] =>
      simp only [handle_invocation, hprep, hbr]
      rw [if_neg (by simp)]
      cases hpb : process_branches c1 arg_states ([] : List BranchInfo)
          (g inv.libfunc_id).signature.branch_signatures none with
      | none => simp [hpb]
      | some p =>
        obtain ⟨cf, fs⟩ := p
        simp [hpb]
    | [b] =>
      obtain ⟨tgt, rs0⟩ := b
      match htgt : tgt with
      | BranchTarget.Fallthrough => exact absurd hbr (hne rs0)
      | BranchTarget.Statement l =>
        simp only [handle_invocation, hprep, hbr]
        rw [if_neg (by simp)]
        cases hpb : process_branches c1 arg_states [⟨BranchTarget.Statement l, rs0⟩]
            (g inv.libfunc_id).signature.branch_signatures none with
        | none => simp [hpb]
        | some p =>
          obtain ⟨cf, fs⟩ := p
          simp [hpb]
    | b :: b2 :: rest =>
      rw [hbr] at hlen
      exact absurd (show 1 < (b :: b2 :: rest).length by
        simp only [List.length_cons]; omega) hlen
  · intro rs bsig hbr hsig0
    show handle_invocation c inv g = _
    match hap : bsig.ap_change with
    | SierraApChange.Unknown =>
      simp only [handle_invocation, hprep, hbr, hsig0, hap]
      cases hsv : store_variables_as_locals c1 with
      | none => simp [hsv]
      | some cmid =>
        cases hreg : ctx_register_outputs cmid rs bsig arg_states with
        | none => simp [hsv, hreg]
        | some cfin => simp [hsv, hreg]
    | SierraApChange.Known dl =>
      simp only [handle_invocation, hprep, hbr, hsig0, hap]
      cases hreg : ctx_register_outputs c1 rs bsig arg_states with
      | none => simp [hreg]
      | some cfin => simp [hreg]
    | SierraApChange.BranchAlign =>
      simp only [handle_invocation, hprep, hbr, hsig0, hap]
      cases hreg : ctx_register_outputs c1 rs bsig arg_states with
      | none => simp [hreg]
      | some cfin => simp [hreg]

/-- C4: store_all_possibly_lost_variables runs exactly when the invocation
has more than one branch (single fallthrough or jump branches never run
it), and for every variable of the current state it spills a TempVar to its
local slot iff the variable is marked local (otherwise untouched), removes
a non-Const Deferred variable and stores it via store_deferred (local slot
when marked local, store_temp otherwise), skips Const-Deferred variables
and leaves LocalVar entries untouched. -/
theorem c4_store_all_possibly_lost :
    (∀ (c c1 : Ctx) (inv : GenInvocation) (g : LibfuncId → LibfuncInfo)
        (arg_states : List VarState),
      prepare_libfunc_arguments c inv.args
          (g inv.libfunc_id).signature.param_signatures = some (arg_states, c1) →
      ((1 < inv.branches.length →
        handle_statement c (Statement.Invocation inv) g =
          (store_all_possibly_lost_variables c1).bind fun cmid =>
            (process_branches cmid arg_states inv.branches
                (g inv.libfunc_id).signature.branch_signatures none).map fun p =>
              append_stmt (Statement.Invocation inv) { p.1 with state_opt := p.2 }) ∧
       ((∀ rs, inv.branches ≠ [⟨BranchTarget.Fallthrough, rs⟩]) →
          ¬ 1 < inv.branches.length →
        handle_statement c (Statement.Invocation inv) g =
          (process_branches c1 arg_states inv.branches
              (g inv.libfunc_id).signature.branch_signatures none).map fun p =>
            append_stmt (Statement.Invocation inv) { p.1 with state_opt := p.2 }) ∧
       (∀ rs bsig, inv.branches = [⟨BranchTarget.Fallthrough, rs⟩] →
        (g inv.libfunc_id).signature.branch_signatures[0]? = some bsig →
        handle_statement c (Statement.Invocation inv) g =
          (match bsig.ap_change with
           | SierraApChange.Unknown => store_variables_as_locals c1
           | _ => some c1).bind fun cmid =>
            (ctx_register_outputs cmid rs bsig arg_states).map
              (append_stmt (Statement.Invocation inv))))) ∧
    (∀ (d d2 : Ctx) (t : State),
      d.state_opt = some t → keys_nodup t.vars →
      store_all_possibly_lost_variables d = some d2 →
      ∀ v vs, om_lookup t.vars v = some vs →
        ∃ s2, d2.state_opt = some s2 ∧
          (match om_lookup d.local_variables v, vs with
           | some u, VarState.TempVar ty =>
             om_lookup s2.vars v = some VarState.LocalVar ∧
             simple_statement (LibfuncId.StoreLocal ty) [u, v] [v] ∈ d2.result
           | none, VarState.TempVar ty => om_lookup s2.vars v = some (VarState.TempVar ty)
           | some u, VarState.Deferred info =>
             if info.kind = DeferredVariableKind.Const then
               om_lookup s2.vars v = some (VarState.Deferred info)
             else
               om_lookup s2.vars v = some VarState.LocalVar ∧
               simple_statement (LibfuncId.StoreLocal info.ty) [u, v] [v] ∈ d2.result
           | none, VarState.Deferred info =>
             if info.kind = DeferredVariableKind.Const then
               om_lookup s2.vars v = some (VarState.Deferred info)
             else
               om_lookup s2.vars v = some (VarState.TempVar info.ty) ∧
               simple_statement (LibfuncId.StoreTemp info.ty) [v] [v] ∈ d2.result
           | _, VarState.LocalVar => om_lookup s2.vars v = some VarState.LocalVar)) :=
  ⟨fun c c1 inv g arg_states hprep => handle_branching_eq c c1 inv g arg_states hprep,
   fun d d2 t hs hn hsv => store_all_possibly_lost_variables_unit d d2 t hs hn hsv⟩

/-- C4 witness: the per-variable effect instantiated on a concrete context
holding one local-marked temporary and one unmarked generic deferred
variable. -/
theorem c4_witness :
    store_all_possibly_lost_variables
      ⟨[(3, 8)], [],
       some ⟨[(3, VarState.TempVar 1),
              (4, VarState.Deferred ⟨DeferredVariableKind.Generic, 2⟩)], []⟩, []⟩ =
      some ⟨[(3, 8)],
        [simple_statement (LibfuncId.StoreLocal 1) [8, 3] [3],
         simple_statement (LibfuncId.StoreTemp 2) [4] [4]],
        some ⟨[(3, VarState.LocalVar), (4, VarState.TempVar 2)], [4]⟩, []⟩ ∧
    (∃ s2, (⟨[(3, 8)],
        [simple_statement (LibfuncId.StoreLocal 1) [8, 3] [3],
         simple_statement (LibfuncId.StoreTemp 2) [4] [4]],
        some ⟨[(3, VarState.LocalVar), (4, VarState.TempVar 2)], [4]⟩, []⟩ : Ctx).state_opt =
          some s2 ∧
      (match om_lookup ([(3, 8)] : List (VarId × VarId)) 3, VarState.TempVar 1 with
       | some u, VarState.TempVar ty =>
         om_lookup s2.vars 3 = some VarState.LocalVar ∧
         simple_statement (LibfuncId.StoreLocal ty) [u, 3] [3] ∈
           (⟨[(3, 8)],
             [simple_statement (LibfuncId.StoreLocal 1) [8, 3] [3],
              simple_statement (LibfuncId.StoreTemp 2) [4] [4]],
             some ⟨[(3, VarState.LocalVar), (4, VarState.TempVar 2)], [4]⟩, []⟩ : Ctx).result
       | none, VarState.TempVar ty => om_lookup s2.vars 3 = some (VarState.TempVar ty)
       | some u, VarState.Deferred info =>
         if info.kind = DeferredVariableKind.Const then
           om_lookup s2.vars 3 = some (VarState.Deferred info)
         else
           om_lookup s2.vars 3 = some VarState.LocalVar ∧
           simple_statement (LibfuncId.StoreLocal info.ty) [u, 3] [3] ∈
             (⟨[(3, 8)],
               [simple_statement (LibfuncId.StoreLocal 1) [8, 3] [3],
                simple_statement (LibfuncId.StoreTemp 2) [4] [4]],
               some ⟨[(3, VarState.LocalVar), (4, VarState.TempVar 2)], [4]⟩, []⟩ : Ctx).result
       | none, VarState.Deferred info =>
         if info.kind = DeferredVariableKind.Const then
           om_lookup s2.vars 3 = some (VarState.Deferred info)
         else
           om_lookup s2.vars 3 = some (VarState.TempVar info.ty) ∧
           simple_statement (LibfuncId.StoreTemp info.ty) [3] [3] ∈
             (⟨[(3, 8)],
               [simple_statement (LibfuncId.StoreLocal 1) [8, 3] [3],
                simple_statement (LibfuncId.StoreTemp 2) [4] [4]],
               some ⟨[(3, VarState.LocalVar), (4, VarState.TempVar 2)], [4]⟩, []⟩ : Ctx).result
       | _, VarState.LocalVar => om_lookup s2.vars 3 = some VarState.LocalVar)) :=
  ⟨by decide,
    c4_store_all_possibly_lost.2
      ⟨[(3, 8)], [],
       some ⟨[(3, VarState.TempVar 1),
              (4, VarState.Deferred ⟨DeferredVariableKind.Generic, 2⟩)], []⟩, []⟩
      ⟨[(3, 8)],
        [simple_statement (LibfuncId.StoreLocal 1) [8, 3] [3],
         simple_statement (LibfuncId.StoreTemp 2) [4] [4]],
        some ⟨[(3, VarState.LocalVar), (4, VarState.TempVar 2)], [4]⟩, []⟩
      ⟨[(3, VarState.TempVar 1),
        (4, VarState.Deferred ⟨DeferredVariableKind.Generic, 2⟩)], []⟩
      rfl (by decide) (by decide) 3 (VarState.TempVar 1) (by decide)⟩

/-! Idempotence: the pass is not idempotent in general, but programs made
of returns and labels only pass through unchanged, so on them a second run
reproduces the first. -/

/-- Running the statement loop over control-only statements appends exactly
those statements to the output. -/
theorem run_statements_control :
    ∀ (stmts : List Statement) (g : LibfuncId → LibfuncInfo) (c c2 : Ctx),
      (∀ st ∈ stmts, is_control st = true) →
      run_statements g c stmts = some c2 →
      c2.result = c.result ++ stmts := by
  intro stmts
  induction stmts with
  | nil =>
    intro g c c2 _ h
    unfold run_statements at h
    injection h with h
    rw [← h]
    simp
  | cons st rest ih =>
    intro g c c2 hctl h
    unfold run_statements at h
    split at h
    · exact absurd h (by simp)
    · rename_i cB heq
      have hst := hctl st (List.mem_cons.mpr (Or.inl rfl))
      have hrest : ∀ s2 ∈ rest, is_control s2 = true :=
        fun s2 hs2 => hctl s2 (List.mem_cons.mpr (Or.inr hs2))
      have hres := ih g cB c2 hrest h
      cases st with
      | Invocation inv => exact absurd hst (by simp [is_control])
      | PushValues pvs => exact absurd hst (by simp [is_control])
      | Return vars2 =>
        unfold handle_statement at heq
        replace heq : (match c.state_opt with
            | none => none
            | some _ => some { c with
                result := c.result ++ [Statement.Return vars2]
                state_opt := none }) = some cB := heq
        split at heq
        · exact absurd heq (by simp)
        · injection heq with heq
          rw [← heq] at hres
          rw [hres]
          simp
      | Label l =>
        unfold handle_statement at heq
        replace heq : some { c with
            result := c.result ++ [Statement.Label l]
            state_opt := merge_optional_states c.state_opt (om_lookup c.future_states l)
            future_states := om_swap_remove c.future_states l } = some cB := heq
        injection heq with heq
        rw [← heq] at hres
        rw [hres]
        simp

/-- C9 counterexample: the pass maps c9_input to c9_out1, but running the
pass again on c9_out1 does not reproduce c9_out1: the synthesised
store_local statement recreates the local-marked temporary, so the second
run synthesises a duplicate store_local.  The pass is therefore not
idempotent on its own output. -/
theorem c9_counterexample :
    add_store_statements c9_input c9_get_info [(1, 0)] [0] = some c9_out1 ∧
    ¬ add_store_statements c9_out1 c9_get_info [(1, 0)] [0] = some c9_out1 := by
  exact ⟨by decide, by decide⟩

/-- C9 (amended): the pass is idempotent on its fixed points; in
particular, a program made only of returns and labels is passed through
unchanged and a second run reproduces it. -/
theorem c9_fixed_point_amended :
    ∀ (stmts : List Statement) (g : LibfuncId → LibfuncInfo)
      (lv : List (VarId × VarId)) (p : List VarId) (out : List Statement),
      (∀ st ∈ stmts, is_control st = true) →
      add_store_statements stmts g lv p = some out →
      out = stmts ∧ add_store_statements out g lv p = some out := by
  intro stmts g lv p out hctl h
  have hout : out = stmts := by
    unfold add_store_statements at h
    split at h
    · exact absurd h (by simp)
    · rename_i cfin heq
      have hres := run_statements_control stmts g (initial_ctx lv p) cfin hctl heq
      unfold finalize at h
      split at h
      · exact absurd h (by simp)
      · split at h
        · injection h with h
          rw [← h, hres]
          show ([] : List Statement) ++ stmts = stmts
          simp
        · exact absurd h (by simp)
  exact ⟨hout, hout ▸ h⟩

/-- C9 witness: a single return statement is control-only, is mapped to
itself by the pass, and a second run reproduces it. -/
theorem c9_witness :
    (∀ st ∈ ([Statement.Return []] : List Statement), is_control st = true) ∧
    add_store_statements [Statement.Return []] c9_get_info [] [] =
      some [Statement.Return []] ∧
    ([Statement.Return []] : List Statement) = [Statement.Return []] ∧
    add_store_statements [Statement.Return []] c9_get_info [] [] =
      some [Statement.Return []] :=
  ⟨by decide, by decide,
    c9_fixed_point_amended [Statement.Return []] c9_get_info [] [] [Statement.Return []]
      (by decide) (by decide)⟩

end StoreVars
